import Mathlib

/-!
Verification of the liquify warp engine (src/iop/liquify.c) against its
natural-language specification.

The development shallowly embeds the C code:
* 2-D points (`double complex`) over exact rationals (`CQ`) where the C code
  only moves or linearly combines them, and over `ℂ` where the code takes
  square roots, arguments or exponentials (`cabs`, `carg`, `cexp`);
* IEEE-754 double arithmetic is modelled exactly (reals/rationals);
* C `assert` failures and undefined control paths are modelled as `Option`
  results (`none` = abort);
* stateful loops become structural recursions (with explicit fuel where the
  C loop is not structurally bounded, matching the C loop's partiality);
* the serialized parameter blob is modelled at field granularity: every
  `memcpy`d node record becomes one blob item carrying the record's declared
  header and payload, and all pointer arithmetic is done on declared byte
  sizes, exactly as the parser in `unserialize_paths` does.
-/

namespace Liquify

open scoped Classical

/-! ## Integer square root and C-style rounding helpers

`round (cabs z)` in the C code is "round half away from zero" of a real
square root.  All quantities rounded in liquify.c are nonnegative, so this is
`⌊√x + 1/2⌋`.  We implement it exactly over ℚ/ℕ with a structural integer
square root so that it is kernel-computable, and prove the defining
characterisation `(N - 1/2)² ≤ q < (N + 1/2)²` below. -/

/-- Fuel-driven integer square root search: starting from candidate `s`,
increase while `(s+1)² ≤ n`. -/
def isqrtGo (n : ℕ) : ℕ → ℕ → ℕ
  | 0, s => s
  | f + 1, s => if (s + 1) * (s + 1) ≤ n then isqrtGo n f (s + 1) else s

/-- Integer square root `⌊√n⌋`, kernel-computable. -/
def isqrt (n : ℕ) : ℕ := isqrtGo n n 0

/-- Round-half-up of `√n` for a natural number `n`: `⌊√n + 1/2⌋`. -/
def roundSqrtNat (n : ℕ) : ℕ := (isqrt (4 * n) + 1) / 2

/-- Round-half-up of `√q` for a nonnegative rational `q`: `⌊√q + 1/2⌋`.
For `q = a/b` (lowest terms) this is `(⌊√(4ab)⌋ + b) / (2b)`. -/
def roundSqrtQ (q : ℚ) : ℕ := (isqrt (4 * q.num.toNat * q.den) + q.den) / (2 * q.den)

/-- C `round()`: round half away from zero, as `double → int`. -/
def croundQ (q : ℚ) : ℤ := if 0 ≤ q then ⌊q + 1/2⌋ else ⌈q - 1/2⌉

/-- C truncation `(int)` cast: round toward zero. -/
def ctruncQ (q : ℚ) : ℤ := if 0 ≤ q then ⌊q⌋ else ⌈q⌉

/-! ## Data model (§3 of the spec; `dt_liquify_warp_t`, `dt_liquify_path_data_t`)

Warp type and node type enums are kept as the numeric values the C code
stores (`DT_LIQUIFY_WARP_TYPE_LINEAR = 0`, `RADIAL_GROW = 1`,
`RADIAL_SHRINK = 2`; node types `CUSP = 0`, `SMOOTH = 1`, `SYMMETRICAL = 2`,
`AUTOSMOOTH = 3`; path kinds `MOVE_TO = 0`, `LINE_TO = 1`, `CURVE_TO = 2`,
`CLOSE_PATH = 3`), because the serialized format stores arbitrary `u32`s. -/

/-- A 2-D point / complex scalar with exact rational coordinates
(real part, imaginary part). -/
abbrev CQ : Type := ℚ × ℚ

/-- Complex norm squared over `CQ`. -/
def normSqQ (p : CQ) : ℚ := p.1 * p.1 + p.2 * p.2

/-- Scalar multiplication of a `CQ` point by a rational. -/
def smQ (t : ℚ) (p : CQ) : CQ := (t * p.1, t * p.2)

/-- `dt_liquify_warp_t`: the warp descriptor.  `strength` and `radius` are
stored as points; the effective vectors are `strength - point` and
`radius - point`. -/
structure WarpQ where
  point : CQ
  strength : CQ
  radius : CQ
  control1 : ℚ
  control2 : ℚ
  wtype : ℕ
  deriving DecidableEq, Repr

/-- The non-size, non-kind fields of `dt_liquify_path_header_t`. -/
structure Hdr where
  node_type : ℕ
  selected : ℕ
  hovered : ℕ
  deriving DecidableEq, Repr

/-- A path node (`dt_liquify_path_data_t` tagged union): kind plus payload.
`closePath` carries only the header, like `dt_liquify_close_path_v1_t`. -/
inductive Node : Type
  | moveTo (h : Hdr) (w : WarpQ)
  | lineTo (h : Hdr) (w : WarpQ)
  | curveTo (h : Hdr) (w : WarpQ) (ctrl1 ctrl2 : CQ)
  | closePath (h : Hdr)
  deriving DecidableEq, Repr

/-- A path: ordered list of nodes.  A document: ordered list of paths
(`GList` of `GList`s in the C code). -/
abbrev Doc : Type := List (List Node)

/-- An arbitrary fixed warp value standing in for the C code reading the
union's warp fields of a node that does not store them (`close_path` has no
warp; such a read in C touches unspecified memory). -/
def junkWarp : WarpQ := ⟨(0, 0), (0, 0), (0, 0), 0, 0, 0⟩

/-- The warp stored in a node (`data->warp`). -/
def warpOf : Node → WarpQ
  | .moveTo _ w => w
  | .lineTo _ w => w
  | .curveTo _ w _ _ => w
  | .closePath _ => junkWarp

/-- The header of a node. -/
def hdrOf : Node → Hdr
  | .moveTo h _ => h
  | .lineTo h _ => h
  | .curveTo h _ _ _ => h
  | .closePath h => h

/-- `_get_point`: the anchor point of a node (aliases `warp.point`). -/
def ptOf (n : Node) : CQ := (warpOf n).point

/-- Numeric node kind of a node, as stored in `header.type`. -/
def kindOf : Node → ℕ
  | .moveTo _ _ => 0
  | .lineTo _ _ => 1
  | .curveTo _ _ _ _ => 2
  | .closePath _ => 3

/-- Replace the warp type of a warp descriptor, keeping all other fields. -/
def setWtypeQ (w : WarpQ) (t : ℕ) : WarpQ :=
  { w with wtype := t }

/-! ## Serialization (`serialize_paths` / `unserialize_paths`,
liquify.c lines 432-552)

A blob is a byte buffer; we model it at field granularity.  Each blob item
is either a path-size field (`size_t`, 8 bytes) or one node record
(`memcpy`d struct of `header.size` bytes).  Byte positions are tracked using
the declared sizes, exactly as the C parser's pointer arithmetic does.
Struct byte sizes on the reference LP64 platform:
`sizeof (dt_liquify_move_to_v1_t) = sizeof (dt_liquify_line_to_v1_t) = 96`,
`sizeof (dt_liquify_curve_to_v1_t) = 128`,
`sizeof (dt_liquify_close_path_v1_t) = 24`.
A record whose declared size is smaller than the full struct does not store
the trailing fields; the model still carries values for them (they are
ignored wherever the corresponding bytes do not exist). -/

/-- One item of a serialized blob. -/
inductive BItem : Type
  | psize (n : ℕ)
  | record (sz rt nt sel hov : ℕ) (w : WarpQ) (c1 c2 : CQ)
  deriving DecidableEq, Repr

/-- Byte size a blob item occupies: 8 for the path size field, the declared
`header.size` for a node record. -/
def itemBytes : BItem → ℕ
  | .psize _ => 8
  | .record sz _ _ _ _ _ _ _ => sz

/-- The struct size required by a declared node kind (`switch` in
`unserialize_paths`); 0 for an unknown kind (`default:` branch). -/
def expectedSize : ℕ → ℕ
  | 0 => 96
  | 1 => 96
  | 2 => 128
  | 3 => 24
  | _ => 0

/-- `header.size` of an in-memory node (set by `palloc`). -/
def nodeSize : Node → ℕ
  | .moveTo _ _ => 96
  | .lineTo _ _ => 96
  | .curveTo _ _ _ _ => 128
  | .closePath _ => 24

/-- Serialize one node into a blob record (the `memcpy` in
`serialize_paths`).  Fields that the struct does not store are written as
zero placeholders; they correspond to no bytes. -/
def encodeNode : Node → BItem
  | .moveTo h w => .record 96 0 h.node_type h.selected h.hovered w (0, 0) (0, 0)
  | .lineTo h w => .record 96 1 h.node_type h.selected h.hovered w (0, 0) (0, 0)
  | .curveTo h w c1 c2 => .record 128 2 h.node_type h.selected h.hovered w c1 c2
  | .closePath h => .record 24 3 h.node_type h.selected h.hovered junkWarp (0, 0) (0, 0)

/-- Rebuild the in-memory node from a record whose declared size matched its
declared kind (the `malloc` + `memcpy` in `unserialize_paths`).  Only fields
present in the struct of the given kind are read. -/
def decodeNode (rt nt sel hov : ℕ) (w : WarpQ) (c1 c2 : CQ) : Node :=
  match rt with
  | 0 => .moveTo ⟨nt, sel, hov⟩ w
  | 1 => .lineTo ⟨nt, sel, hov⟩ w
  | 2 => .curveTo ⟨nt, sel, hov⟩ w c1 c2
  | _ => .closePath ⟨nt, sel, hov⟩

/-- `serialize_paths`: for each path, a `size_t` size field (8 plus the sum
of the record sizes) followed by the records. -/
def serialize_paths (paths : Doc) : List BItem :=
  paths.flatMap fun p => .psize (8 + (p.map nodeSize).sum) :: p.map encodeNode

/-- `get_blob_size`: total byte size of the serialized paths. -/
def get_blob_size (paths : Doc) : ℕ :=
  (paths.map fun p => 8 + (p.map nodeSize).sum).sum

/-- Parser mode of `unserialize_paths`: between paths, reading records of
the current path (`bytes` left until `path_end`, nodes accumulated so far),
or skipping the rest of a path after a bogus record (`p = path_end`). -/
inductive PMode : Type
  | between
  | reading (bytes : ℕ) (acc : List Node)
  | skipping (bytes : ℕ) (acc : List Node)

/-- The loop of `unserialize_paths` as a single structural pass over the
blob items.  `none` models an aborted run (a failed `assert`, or reads that
are not aligned on item boundaries and hence reinterpret unrelated bytes —
never reachable from blobs whose size fields are consistent). -/
def parseStep : List BItem → PMode → List (List Node) → Option (List (List Node))
  | [], .between, ps => some ps
  | [], .reading _ _, _ => none
  | [], .skipping _ _, _ => none
  | .psize n :: rest, .between, ps =>
    if n < 8 then none
    else if n = 8 then parseStep rest .between (ps ++ [[]])
    else parseStep rest (.reading (n - 8) []) ps
  | .record _ _ _ _ _ _ _ _ :: _, .between, _ => none
  | .psize _ :: _, .reading _ _, _ => none
  | .record sz rt nt sel hov w c1 c2 :: rest, .reading b acc, ps =>
    if expectedSize rt = 0 ∨ sz ≠ expectedSize rt then
      -- bogus type or size: "forget this path, try the next one":
      -- p = path_end, the inner loop exits and the nodes parsed so far
      -- are appended as a path
      if sz < b then parseStep rest (.skipping (b - sz) acc) ps
      else if sz = b then parseStep rest .between (ps ++ [acc])
      else none
    else
      if sz < b then
        parseStep rest (.reading (b - sz) (acc ++ [decodeNode rt nt sel hov w c1 c2])) ps
      else if sz = b then
        parseStep rest .between (ps ++ [acc ++ [decodeNode rt nt sel hov w c1 c2]])
      else none
  | it :: rest, .skipping b acc, ps =>
    if itemBytes it < b then parseStep rest (.skipping (b - itemBytes it) acc) ps
    else if itemBytes it = b then parseStep rest .between (ps ++ [acc])
    else none

/-- `unserialize_paths` on a whole blob. -/
def unserialize_paths (items : List BItem) : Option (List (List Node)) :=
  parseStep items .between []

/-- `dt_iop_liquify_params_t`: blob size, blob version, byte buffer. -/
structure Params : Type where
  blob_size : ℕ
  blob_version : ℕ
  buffer : List BItem

/-- `serialize_params`: sets size and version 1 and serializes the paths. -/
def serialize_params (paths : Doc) : Params :=
  ⟨get_blob_size paths, 1, serialize_paths paths⟩

/-- `unserialize_params`: version 1 is parsed, any other version yields the
`NULL` (empty) path list. -/
def unserialize_params (p : Params) : Option (List (List Node)) :=
  if p.blob_version = 1 then unserialize_paths p.buffer else some []

/-! ## Node deletion (`delete_node`, liquify.c lines 2852-2888) -/

/-- Overwrite a node's anchor point, radius point and strength point (the
head-healing assignment in `delete_node`); the node's kind, header and any
control points are untouched. -/
def copyPRS (dst src : Node) : Node :=
  match dst with
  | .moveTo h w =>
    .moveTo h { w with point := (warpOf src).point, radius := (warpOf src).radius,
                       strength := (warpOf src).strength }
  | .lineTo h w =>
    .lineTo h { w with point := (warpOf src).point, radius := (warpOf src).radius,
                       strength := (warpOf src).strength }
  | .curveTo h w c1 c2 =>
    .curveTo h { w with point := (warpOf src).point, radius := (warpOf src).radius,
                        strength := (warpOf src).strength } c1 c2
  | .closePath h => .closePath h

/-- `delete_node` on the document, addressing the node by path index and
node index.  `none` models the `assert`s (node not found, or a `close_path`
node, whose deletion the code asserts against).  The modified path is
appended at the end of the path list, as `g_list_remove` followed by
`g_list_append` does; an emptied path is dropped. -/
def delete_node (paths : Doc) (pi ni : ℕ) : Option Doc :=
  match paths.get? pi with
  | none => none
  | some path =>
    match path.get? ni with
    | none => none
    | some nd =>
      if kindOf nd ≤ 2 then
        let rest := paths.eraseIdx pi
        let newPath : List Node :=
          if ni = 0 ∧ 1 < path.length then
            match path with
            | n0 :: n1 :: tl => copyPRS n0 n1 :: tl
            | l => l
          else
            path.eraseIdx ni
        some (if newPath.isEmpty then rest else rest ++ [newPath])
      else none


/-! ## Spline smoother (`smooth_paths_linsys` / `smooth_path_linsys`,
liquify.c lines 2621-2822)

The knot, control-point and equation arrays are `calloc`ed to zero and then
filled from the path, so we model them as total index functions defaulting
to zero exactly like the C arrays.  The control point `c1[k-1]`/`c2[k-1]`
is loaded from node `k` when that node is a CurveTo. -/

/-- Knot array `pt[k]` of `smooth_paths_linsys`. -/
def ptArr (path : List Node) (i : ℕ) : CQ :=
  match path.get? i with
  | some nd => ptOf nd
  | none => (0, 0)

/-- Control-point array `c1[i]`: `ctrl1` of node `i+1` when it is a CurveTo,
else the `calloc` zero. -/
def c1Arr (path : List Node) (i : ℕ) : CQ :=
  match path.get? (i + 1) with
  | some (.curveTo _ _ a _) => a
  | _ => (0, 0)

/-- Control-point array `c2[i]`: `ctrl2` of node `i+1` when it is a CurveTo,
else the `calloc` zero. -/
def c2Arr (path : List Node) (i : ℕ) : CQ :=
  match path.get? (i + 1) with
  | some (.curveTo _ _ _ b) => b
  | _ => (0, 0)

/-- The equation selection cascade of `smooth_paths_linsys` for node `k`. -/
def eqnSel (path : List Node) (k : ℕ) : ℕ :=
  match path.get? k with
  | none => 0
  | some d =>
    let auto : Bool := (hdrOf d).node_type == 3
    let nextAuto : Bool :=
      match path.get? (k + 1) with
      | some n2 => (hdrOf n2).node_type == 3
      | none => false
    let firstseg : Bool := k == 0 || kindOf d != 2
    let lastseg : Bool :=
      match path.get? (k + 2) with
      | some nn => kindOf nn != 2
      | none => true
    let lineseg : Bool :=
      match path.get? (k + 1) with
      | some n2 => kindOf n2 == 1
      | none => false
    bif lineseg then 5
    else bif !auto && !nextAuto then 5
    else bif firstseg && lastseg && !auto && nextAuto then 7
    else bif firstseg && lastseg && auto && nextAuto then 8
    else bif firstseg && lastseg && auto && !nextAuto then 9
    else bif firstseg && auto then 1
    else bif lastseg && auto && nextAuto then 3
    else bif lastseg && !auto && nextAuto then 7
    else bif auto && !nextAuto then 6
    else bif !auto && nextAuto then 4
    else 2

/-- Subdiagonal coefficient `a[i]` of the tridiagonal system. -/
def rowA (path : List Node) (i : ℕ) : ℚ :=
  match eqnSel path i with
  | 2 => 1
  | 3 => 2
  | 6 => 1
  | _ => 0

/-- Main diagonal coefficient `b[i]`. -/
def rowB (path : List Node) (i : ℕ) : ℚ :=
  match eqnSel path i with
  | 1 => 2
  | 2 => 4
  | 3 => 7
  | 4 => 1
  | 5 => 1
  | 6 => 4
  | 7 => 1
  | 8 => 3
  | 9 => 2
  | _ => 0

/-- Superdiagonal coefficient `c[i]`. -/
def rowC (path : List Node) (i : ℕ) : ℚ :=
  match eqnSel path i with
  | 1 => 1
  | 2 => 1
  | _ => 0

/-- Right-hand side `d[i]`. -/
def rowD (path : List Node) (i : ℕ) : CQ :=
  match eqnSel path i with
  | 1 => ptArr path i + smQ 2 (ptArr path (i + 1))
  | 2 => smQ 4 (ptArr path i) + smQ 2 (ptArr path (i + 1))
  | 3 => smQ 8 (ptArr path i) + ptArr path (i + 1)
  | 4 => c1Arr path i
  | 5 => c1Arr path i
  | 6 => smQ 4 (ptArr path i) + c2Arr path i
  | 7 => c1Arr path i
  | 8 => smQ 2 (ptArr path i) + ptArr path (i + 1)
  | 9 => ptArr path i + c2Arr path i
  | _ => (0, 0)

/-- Thomas forward elimination: the in-place updated `(b[i], d[i])` after
the sweep `m = a[i]/b[i-1]; b[i] -= m*c[i-1]; d[i] -= m*d[i-1]`.  Division
is total rational division (`x/0 = 0` where the C float would produce an
infinity; not reachable for the systems built by `eqnSel`). -/
def thomasFwd (path : List Node) : ℕ → ℚ × CQ
  | 0 => (rowB path 0, rowD path 0)
  | i + 1 =>
    let prev := thomasFwd path i
    let mm := rowA path (i + 1) / prev.1
    (rowB path (i + 1) - mm * rowC path i, rowD path (i + 1) - smQ mm prev.2)

/-- Thomas back substitution, counting `s` steps down from the top row
`m - 1` (`m` is the number of equations): the value of `c1[m-1-s]`. -/
def thomasBack (path : List Node) (m : ℕ) : ℕ → CQ
  | 0 => smQ (1 / (thomasFwd path (m - 1)).1) (thomasFwd path (m - 1)).2
  | s + 1 =>
    let i := m - 2 - s
    smQ (1 / (thomasFwd path i).1)
      ((thomasFwd path i).2 - smQ (rowC path i) (thomasBack path m s))

/-- Solved control point `c1[i]` for `i < m`. -/
def c1Sol (path : List Node) (m i : ℕ) : CQ := thomasBack path m (m - 1 - i)

/-- The `c1` array after `smooth_path_linsys`: entries below `m` are solved,
the remaining allocated entry `c1[m]` keeps its loaded value. -/
def c1Post (path : List Node) (m i : ℕ) : CQ :=
  if i < m then c1Sol path m i else c1Arr path i

/-- The `c2` derivation loop of `smooth_path_linsys`. -/
def c2Sol (path : List Node) (m i : ℕ) : CQ :=
  match eqnSel path i with
  | 5 => c2Arr path i
  | 6 => c2Arr path i
  | 9 => c2Arr path i
  | 3 => smQ (1 / 2) (c1Post path m i + ptArr path (i + 1))
  | 7 => smQ (1 / 2) (c1Post path m i + ptArr path (i + 1))
  | 8 => smQ (1 / 2) (c1Post path m i + ptArr path (i + 1))
  | _ => smQ 2 (ptArr path (i + 1)) - c1Post path m (i + 1)

/-- The write-back loop of `smooth_paths_linsys` over the tail of the path:
node at offset `k` past the first node receives `ctrl1 = c1[k]`,
`ctrl2 = c2[k]` when it is a CurveTo. -/
def writeBackGo (path : List Node) (m : ℕ) : ℕ → List Node → List Node
  | _, [] => []
  | k, nd :: rest =>
    (match nd with
     | .curveTo h w _ _ => .curveTo h w (c1Post path m k) (c2Sol path m k)
     | _ => nd) :: writeBackGo path m (k + 1) rest

/-- The write-back loop of `smooth_paths_linsys`: from the second node on,
every CurveTo receives the solved control points. -/
def smoothPathWriteBack (path : List Node) : List Node :=
  match path with
  | [] => []
  | first :: rest => first :: writeBackGo path (path.length - 1) 0 rest

/-- `smooth_paths_linsys` over the whole document; paths of length < 2 are
skipped. -/
def smooth_paths_linsys (paths : Doc) : Doc :=
  paths.map fun p => if p.length < 2 then p else smoothPathWriteBack p

/-! ## Stamp compositor (`build_lookup_table`, `compute_round_stamp_extent`,
`build_round_stamp`, `add_to_global_distortion_map`, `_get_map_extent`,
liquify.c lines 1105-1504) -/

/-- Radius `round (cabs (warp->radius - warp->point))` of a warp as a
natural number (it is a rounding of a nonnegative quantity). -/
def iradiusQ (w : WarpQ) : ℕ := roundSqrtQ (normSqQ (w.radius - w.point))

/-- Distance index `round (hypotf (x, y) * LOOKUP_OVERSAMPLE)` of the stamp
loop, with `LOOKUP_OVERSAMPLE = 10`: the rounding of `√(100(x²+y²))`. -/
def idistN (x y : ℕ) : ℕ := roundSqrtNat (100 * (x * x + y * y))

/-- `interpolate_cubic_bezier`: `n` samples of the cubic through `p0..p3`,
in polynomial basis; index 0 is `p0`, index `n-1` is `p3`, and inner index
`i` is the polynomial at `t = i/n` (the float code accumulates
`t += 1.0/n`, which is exact here). -/
def interpolate_cubic_bezier (p0 p1 p2 p3 : CQ) (n : ℕ) : List CQ :=
  let pA := p3 - smQ 3 p2 + smQ 3 p1 - p0
  let pB := smQ 3 p2 - smQ 6 p1 + smQ 3 p0
  let pC := smQ 3 p1 - smQ 3 p0
  let pD := p0
  (p0 :: (List.range (n - 2)).map fun i =>
    let t : ℚ := ((i : ℚ) + 1) / (n : ℚ)
    smQ t (smQ t (smQ t pA + pB) + pC) + pD) ++ [p3]

/-- The reparameterisation scan `while (creal (*cptr) < x) cptr++` of
`build_lookup_table`, starting from index `j`.  The C loop has no bound
check; it always stops because the last sample has x-coordinate 1 and
`x < 1`, which the list end mirrors. -/
def lutAdvance (cl : List CQ) (j : ℕ) (x : ℚ) : ℕ :=
  j + ((cl.drop j).takeWhile fun c => c.1 < x).length

/-- One interpolated lookup value:
`cimag (cptr[0]) + (dx2/dx1) * (cimag (cptr[0]) - cimag (cptr[-1]))`
(embedded exactly as written in the C code). -/
def lutVal (cl : List CQ) (j : ℕ) (x : ℚ) : ℚ :=
  let c0 := cl.getD j (0, 0)
  let cm := cl.getD (j - 1) (0, 0)
  let dx1 := c0.1 - cm.1
  let dx2 := x - cm.1
  c0.2 + (dx2 / dx1) * (c0.2 - cm.2)

/-- The middle entries `lookup[1] .. lookup[distance-1]`, scanning with the
persistent pointer `j` (initially 1). -/
def lutGo (cl : List CQ) (dist : ℕ) : ℕ → ℕ → ℕ → List ℚ
  | 0, _, _ => []
  | cnt + 1, i, j =>
    let x : ℚ := (i : ℚ) / (dist : ℚ)
    let j2 := lutAdvance cl j x
    lutVal cl j2 x :: lutGo cl dist cnt (i + 1) j2

/-- `build_lookup_table`: hardness falloff table of `distance + 1` entries,
from a cubic Bézier through `(0,1), (control1,1), (control2,0), (1,0)`
reparameterised by x; `lookup[0] = 1` and `lookup[distance] = 0` are written
directly. -/
def build_lookup_table (dist : ℕ) (c1 c2 : ℚ) : List ℚ :=
  let cl := interpolate_cubic_bezier (0, 1) (c1, 1) (c2, 0) (1, 0) (dist + 1)
  1 :: (lutGo cl dist (dist - 1) 1 1 ++ [0])

/-- `cairo_rectangle_int_t`. -/
structure Rect where
  x : ℤ
  y : ℤ
  width : ℤ
  height : ℤ
  deriving DecidableEq, Repr

/-- Membership of an integer pixel in a rectangle. -/
def inRect (R : Rect) (p : ℤ × ℤ) : Prop :=
  R.x ≤ p.1 ∧ p.1 < R.x + R.width ∧ R.y ≤ p.2 ∧ p.2 < R.y + R.height

instance (R : Rect) (p : ℤ × ℤ) : Decidable (inRect R p) := by
  unfold inRect
  exact inferInstance

/-- Whether two rectangles overlap
(`cairo_region_contains_rectangle ≠ CAIRO_REGION_OVERLAP_OUT` for single
rectangles); an empty rectangle overlaps nothing. -/
def rectOverlap (a b : Rect) : Bool :=
  decide (0 < a.width) && decide (0 < a.height) &&
  decide (0 < b.width) && decide (0 < b.height) &&
  decide (a.x < b.x + b.width) && decide (b.x < a.x + a.width) &&
  decide (a.y < b.y + b.height) && decide (b.y < a.y + a.height)

/-- Intersection of two rectangles with `cairo_region_get_extents`
semantics: the empty region reports the zero rectangle. -/
def interRect (a b : Rect) : Rect :=
  if rectOverlap a b then
    ⟨max a.x b.x, max a.y b.y,
     min (a.x + a.width) (b.x + b.width) - max a.x b.x,
     min (a.y + a.height) (b.y + b.height) - max a.y b.y⟩
  else ⟨0, 0, 0, 0⟩

/-- Bounding box of two nonempty rectangles. -/
def bboxUnion (a b : Rect) : Rect :=
  ⟨min a.x b.x, min a.y b.y,
   max (a.x + a.width) (b.x + b.width) - min a.x b.x,
   max (a.y + a.height) (b.y + b.height) - min a.y b.y⟩

/-- Extents of a union region of (nonempty) rectangles; the empty region
reports the zero rectangle, as `cairo_region_get_extents` does. -/
def regionExtents : List Rect → Rect
  | [] => ⟨0, 0, 0, 0⟩
  | r :: rest => rest.foldl bboxUnion r

/-- `compute_round_stamp_extent`.  The `assert (iradius > 0)` is active
(the file does `#undef NDEBUG`), so a degenerate warp aborts (`none`).
`stamp_extent->x += creal (warp->point)` truncates the double sum into the
int field. -/
def compute_round_stamp_extent (w : WarpQ) : Option Rect :=
  let r := iradiusQ w
  if 0 < r then
    some ⟨ctruncQ (w.point.1 - (r : ℚ)), ctruncQ (w.point.2 - (r : ℚ)),
          2 * (r : ℤ) + 1, 2 * (r : ℤ) + 1⟩
  else none

/-- All stamp extents of a warp list, aborting at the first degenerate warp
exactly as the asserting loop does. -/
def stampExtents : List WarpQ → Option (List Rect)
  | [] => some []
  | w :: ws =>
    match compute_round_stamp_extent w with
    | none => none
    | some r =>
      match stampExtents ws with
      | none => none
      | some rs => some (r :: rs)

/-- `_get_map_extent`: union of the stamp extents that are not entirely
outside `roi_out`, reported as its bounding box. -/
def _get_map_extent (roi_out : Rect) (warps : List WarpQ) : Option Rect :=
  match stampExtents warps with
  | none => none
  | some rs => some (regionExtents (rs.filter fun r => rectOverlap roi_out r))

/-- Cast of an exact rational point into `ℂ`. -/
noncomputable def castC (p : CQ) : ℂ := ⟨(p.1 : ℝ), (p.2 : ℝ)⟩

/-- `abs_strength` of `build_round_stamp`:
`cabs (0.5 * (warp->strength - warp->point))`. -/
noncomputable def absStrengthHalf (w : WarpQ) : ℝ :=
  Complex.abs (castC (smQ (1 / 2) (w.strength - w.point)))

/-- The eight octant writes of one iteration `(y, x)` of the stamp loop
(`0 ≤ y ≤ x ≤ iradius`), as (center-relative pixel, value) pairs, exactly
as the `switch (warp->type)` writes them.  Pointer `o1..o8` offsets
translate to keys `(x,-y), (y,-x), (-y,-x), (-x,-y), (-x,y), (-y,x), (y,x),
(x,y)`. -/
noncomputable def octantWrites (w : WarpQ) (y x : ℕ) : List ((ℤ × ℤ) × ℂ) :=
  let r := iradiusQ w
  let tbl := build_lookup_table (r * 10) w.control1 w.control2
  let al : ℝ := absStrengthHalf w * ((tbl.getD (idistN x y) 0 : ℚ) : ℝ) / (r : ℝ)
  let X : ℂ := (x : ℕ)
  let Y : ℂ := (y : ℕ)
  match w.wtype with
  | 1 =>
    [(((x : ℤ), -(y : ℤ)), (al : ℂ) * (X - Y * Complex.I)),
     (((y : ℤ), -(x : ℤ)), (al : ℂ) * (Y - X * Complex.I)),
     ((-(y : ℤ), -(x : ℤ)), (al : ℂ) * (-Y - X * Complex.I)),
     ((-(x : ℤ), -(y : ℤ)), (al : ℂ) * (-X - Y * Complex.I)),
     ((-(x : ℤ), (y : ℤ)), (al : ℂ) * (-X + Y * Complex.I)),
     ((-(y : ℤ), (x : ℤ)), (al : ℂ) * (-Y + X * Complex.I)),
     (((y : ℤ), (x : ℤ)), (al : ℂ) * (Y + X * Complex.I)),
     (((x : ℤ), (y : ℤ)), (al : ℂ) * (X + Y * Complex.I))]
  | 2 =>
    [(((x : ℤ), -(y : ℤ)), -(al : ℂ) * (X - Y * Complex.I)),
     (((y : ℤ), -(x : ℤ)), -(al : ℂ) * (Y - X * Complex.I)),
     ((-(y : ℤ), -(x : ℤ)), -(al : ℂ) * (-Y - X * Complex.I)),
     ((-(x : ℤ), -(y : ℤ)), -(al : ℂ) * (-X - Y * Complex.I)),
     ((-(x : ℤ), (y : ℤ)), -(al : ℂ) * (-X + Y * Complex.I)),
     ((-(y : ℤ), (x : ℤ)), -(al : ℂ) * (-Y + X * Complex.I)),
     (((y : ℤ), (x : ℤ)), -(al : ℂ) * (Y + X * Complex.I)),
     (((x : ℤ), (y : ℤ)), -(al : ℂ) * (X + Y * Complex.I))]
  | _ =>
    let v : ℂ := castC (smQ (1 / 2) (w.strength - w.point)) * ((tbl.getD (idistN x y) 0 : ℚ) : ℂ)
    [(((x : ℤ), -(y : ℤ)), v), (((y : ℤ), -(x : ℤ)), v),
     ((-(y : ℤ), -(x : ℤ)), v), ((-(x : ℤ), -(y : ℤ)), v),
     ((-(x : ℤ), (y : ℤ)), v), ((-(y : ℤ), (x : ℤ)), v),
     (((y : ℤ), (x : ℤ)), v), (((x : ℤ), (y : ℤ)), v)]

/-- The per-pixel field the octant writes realise: reading the stamp at
center-relative pixel `p` inside the disk yields this value (derived
read-out form of the octant `switch`; proved equal to the writes below). -/
noncomputable def stampField (w : WarpQ) (p : ℤ × ℤ) : ℂ :=
  let r := iradiusQ w
  let tbl := build_lookup_table (r * 10) w.control1 w.control2
  let d := idistN p.1.natAbs p.2.natAbs
  let al : ℝ := absStrengthHalf w * ((tbl.getD d 0 : ℚ) : ℝ) / (r : ℝ)
  match w.wtype with
  | 1 => (al : ℂ) * ((p.1 : ℂ) + (p.2 : ℂ) * Complex.I)
  | 2 => -(al : ℂ) * ((p.1 : ℂ) + (p.2 : ℂ) * Complex.I)
  | _ => castC (smQ (1 / 2) (w.strength - w.point)) * ((tbl.getD d 0 : ℚ) : ℂ)

/-- The eight center-relative pixels written by one octant iteration. -/
def octKeys (x y : ℕ) : List (ℤ × ℤ) :=
  [((x : ℤ), -(y : ℤ)), ((y : ℤ), -(x : ℤ)), (-(y : ℤ), -(x : ℤ)), (-(x : ℤ), -(y : ℤ)),
   (-(x : ℤ), (y : ℤ)), (-(y : ℤ), (x : ℤ)), ((y : ℤ), (x : ℤ)), ((x : ℤ), (y : ℤ))]

/-- Iterations `(y, x)` the octant loop performs: `y` from 0 to `iradius`,
`x` from `y` up, stopping the row at the first `idist ≥ table_size`
(the `goto next_row`). -/
def stampIterList (r ts : ℕ) : List (ℕ × ℕ) :=
  (List.range (r + 1)).flatMap fun y =>
    ((List.range' y (r + 1 - y)).takeWhile fun x => idistN x y < ts).map fun x => (y, x)

/-- All writes `build_round_stamp` performs into the zeroed stamp array. -/
noncomputable def stampWrites (w : WarpQ) : List ((ℤ × ℤ) × ℂ) :=
  let r := iradiusQ w
  (stampIterList r (r * 10)).flatMap fun yx => octantWrites w yx.1 yx.2

/-- The stamp array built by `build_round_stamp`, as a function from
center-relative pixels (the array is zeroed and then written). -/
noncomputable def build_round_stamp (w : WarpQ) : (ℤ × ℤ) → ℂ :=
  (stampWrites w).foldl (fun f e => Function.update f e.1 e.2) fun _ => 0

/-- `build_round_stamp` including its `assert (iradius > 0)` and the stamp
extent `(-r, -r, 2r+1, 2r+1)` it reports (hot pixel at the center). -/
noncomputable def build_round_stamp_checked (w : WarpQ) :
    Option (Rect × ((ℤ × ℤ) → ℂ)) :=
  let r := iradiusQ w
  if 0 < r then
    some (⟨-(r : ℤ), -(r : ℤ), 2 * (r : ℤ) + 1, 2 * (r : ℤ) + 1⟩, build_round_stamp w)
  else none

/-- `add_to_global_distortion_map`: place the stamp at
`round (creal point), round (cimag point)`, clip against the global extent,
and subtract it from the global map. -/
noncomputable def add_to_global_distortion_map (gmap : (ℤ × ℤ) → ℂ) (gext : Rect)
    (w : WarpQ) (stamp : (ℤ × ℤ) → ℂ) (sext : Rect) : (ℤ × ℤ) → ℂ :=
  let mm : Rect := ⟨sext.x + croundQ w.point.1, sext.y + croundQ w.point.2,
                    sext.width, sext.height⟩
  let cmm := interRect mm gext
  fun p =>
    if inRect cmm p then
      gmap p - stamp (p.1 - mm.x + sext.x, p.2 - mm.y + sext.y)
    else gmap p

/-- The stamp accumulation loop of `build_global_distortion_map`. -/
noncomputable def applyStamps (gext : Rect) : List WarpQ → ((ℤ × ℤ) → ℂ) → Option ((ℤ × ℤ) → ℂ)
  | [], g => some g
  | w :: ws, g =>
    match build_round_stamp_checked w with
    | none => none
    | some (sext, st) =>
      applyStamps gext ws (add_to_global_distortion_map g gext w st sext)

/-- The map-building core of `build_global_distortion_map`, from the list of
sampled warps to (extent, zero-initialised accumulated map).  The upstream
steps (parameter unserialisation and the `distort` coordinate collaborator)
are modelled separately / external. -/
noncomputable def build_global_distortion_map (roi_out : Rect) (warps : List WarpQ) :
    Option (Rect × ((ℤ × ℤ) → ℂ)) :=
  match _get_map_extent roi_out warps with
  | none => none
  | some ext =>
    match applyStamps ext warps (fun _ => 0) with
    | none => none
    | some m => some (ext, m)

/-! ## Resampler (`apply_global_distortion_map` / `process`,
liquify.c lines 1356-1609)

The reconstruction kernel (`dt_interpolation_compute_pixel4c`) lives in the
host's `common/interpolation.c`, an external collaborator; it is abstracted
as a `sample` function of the input image and a real source position. -/

/-- `apply_global_distortion_map`: inside the map extent, pixels of
`roi_out` whose map entry is nonzero are resampled at
`(x + Re map, y + Im map)` relative to `roi_in`; all other pixels keep the
previously copied value `out0`. -/
noncomputable def apply_global_distortion_map {V : Type} (sample : ((ℤ × ℤ) → V) → ℝ → ℝ → V)
    (inp : (ℤ × ℤ) → V) (out0 : (ℤ × ℤ) → V) (roi_in roi_out : Rect)
    (m : (ℤ × ℤ) → ℂ) (ext : Rect) : (ℤ × ℤ) → V :=
  fun p =>
    if inRect ext p ∧ inRect roi_out p ∧ m p ≠ 0 then
      sample inp ((p.1 : ℝ) + (m p).re - (roi_in.x : ℝ))
                 ((p.2 : ℝ) + (m p).im - (roi_in.y : ℝ))
    else out0 p

/-- `process`: copy the input over `roi_out` (pixels indexed in absolute
raster coordinates), build the distortion map from the sampled warps, and
apply it unless the extent is empty. -/
noncomputable def process {V : Type} (sample : ((ℤ × ℤ) → V) → ℝ → ℝ → V)
    (inp : (ℤ × ℤ) → V) (roi_in roi_out : Rect) (warps : List WarpQ) : (ℤ × ℤ) → V :=
  let out0 : (ℤ × ℤ) → V := fun p => inp p
  match build_global_distortion_map roi_out warps with
  | none => out0
  | some (ext, m) =>
    if ext.width = 0 ∨ ext.height = 0 then out0
    else apply_global_distortion_map sample inp out0 roi_in roi_out m ext

/-! ## Warp interpolator (`mix_warps`, `interpolate_paths`,
liquify.c lines 919-937 and 2005-2077)

Sampled warps live in `ℂ` because the interpolation mixes magnitudes and
arguments (`cabs`, `carg`, `cexp`).  The C `while (arc_length <
total_length)` loops are not structurally bounded, so they take explicit
fuel; `none` means the fuel ran out (the C loop would still be running). -/

/-- A warp descriptor over `ℂ` (a materialised `dt_liquify_warp_t` during
interpolation). -/
structure WarpC where
  point : ℂ
  strength : ℂ
  radius : ℂ
  control1 : ℝ
  control2 : ℝ
  wtype : ℕ

/-- Cast a rational warp descriptor into `ℂ` coordinates. -/
noncomputable def toC (w : WarpQ) : WarpC :=
  ⟨castC w.point, castC w.strength, castC w.radius, (w.control1 : ℝ), (w.control2 : ℝ), w.wtype⟩

/-- Replace the warp type of a `WarpC`, keeping all other fields. -/
def setWtypeC (w : WarpC) (t : ℕ) : WarpC :=
  { w with wtype := t }

/-- `mix` on scalars. -/
noncomputable def mixR (a b t : ℝ) : ℝ := a + (b - a) * t

/-- `cmix` on points. -/
noncomputable def cmixC (p0 p1 : ℂ) (t : ℝ) : ℂ := p0 + (p1 - p0) * (t : ℂ)

/-- `mix_warps`: blends two warps at point `pt` and parameter `t`; the type
is taken from `warp1`, controls blend linearly, the radius magnitude blends
linearly and is re-anchored at `pt`, the strength blends in polar form. -/
noncomputable def mix_warps (w1 w2 : WarpC) (pt : ℂ) (t : ℝ) : WarpC :=
  let radius := mixR (Complex.abs (w1.radius - w1.point)) (Complex.abs (w2.radius - w2.point)) t
  let rr := mixR (Complex.abs (w1.strength - w1.point)) (Complex.abs (w2.strength - w2.point)) t
  let phi := mixR (w1.strength - w1.point).arg (w2.strength - w2.point).arg t
  { point := pt
  , strength := pt + (rr : ℂ) * Complex.exp ((phi : ℂ) * Complex.I)
  , radius := pt + (radius : ℂ)
  , control1 := mixR w1.control1 w2.control1 t
  , control2 := mixR w1.control2 w2.control2 t
  , wtype := w1.wtype }

/-- The per-sample strength relocation
`w->strength = cmix (w->point, w->strength, STAMP_RELOCATION)` with
`STAMP_RELOCATION = 0.1`. -/
noncomputable def relocateStrength (w : WarpC) : WarpC :=
  { w with strength := cmixC w.point w.strength (1 / 10) }

/-- The LineTo sampling loop of `interpolate_paths`. -/
noncomputable def interpolate_line (w1 w2 : WarpC) (p1 p2 : ℂ) :
    ℕ → ℝ → Option (List WarpC)
  | 0, arc => if arc < Complex.abs (p1 - p2) then none else some []
  | fuel + 1, arc =>
    let total := Complex.abs (p1 - p2)
    if arc < total then
      let t := arc / total
      let w := relocateStrength (mix_warps w1 w2 (cmixC p1 p2 t) t)
      match interpolate_line w1 w2 p1 p2 fuel
          (arc + Complex.abs (w.radius - w.point) * (1 / 10)) with
      | none => none
      | some l => some (w :: l)
    else some []

/-- `get_arc_length`: polyline length. -/
noncomputable def get_arc_length : List ℂ → ℝ
  | [] => 0
  | [_] => 0
  | p :: q :: rest => Complex.abs (p - q) + get_arc_length (q :: rest)

/-- The scanning loop of `point_at_arc_length` from index `i` with
accumulated length `len`; fuel is the number of remaining indices. -/
noncomputable def paalGo (pts : List ℂ) (target : ℝ) : ℕ → ℕ → ℝ → Option (ℂ × ℕ × ℝ)
  | 0, _, _ => none
  | f + 1, i, len =>
    let len2 := len + Complex.abs (pts.getD (i - 1) 0 - pts.getD i 0)
    if target ≤ len2 then
      let t := (target - len) / (len2 - len)
      some (cmixC (pts.getD (i - 1) 0) (pts.getD i 0) t, i, len)
    else paalGo pts target f (i + 1) len2

/-- `point_at_arc_length` with its restart cookie: on a hit the cookie
becomes `(i, prev_length)`; if the scan runs off the end, the last point is
returned and the cookie is left unchanged. -/
noncomputable def point_at_arc_length (pts : List ℂ) (target : ℝ) (ck : ℕ × ℝ) :
    ℂ × (ℕ × ℝ) :=
  match paalGo pts target (pts.length - ck.1) ck.1 ck.2 with
  | some (pt, i, plen) => (pt, (i, plen))
  | none => (pts.getD (pts.length - 1) 0, ck)

/-- The CurveTo sampling loop of `interpolate_paths` (over the 100-point
Bézier polyline, with the monotone restart cookie). -/
noncomputable def interpolate_curve (w1 w2 : WarpC) (pts : List ℂ) :
    ℕ → ℝ → (ℕ × ℝ) → Option (List WarpC)
  | 0, arc, _ => if arc < get_arc_length pts then none else some []
  | fuel + 1, arc, ck =>
    let total := get_arc_length pts
    if arc < total then
      let pr := point_at_arc_length pts arc ck
      let w := relocateStrength (mix_warps w1 w2 pr.1 (arc / total))
      match interpolate_curve w1 w2 pts fuel
          (arc + Complex.abs (w.radius - w.point) * (1 / 10)) pr.2 with
      | none => none
      | some l => some (w :: l)
    else some []

/-- `interpolate_paths` on one path: walk the nodes with their predecessor.
A lone trailing MoveTo emits its warp; LineTo and CurveTo segments run their
sampling loops against the predecessor's warp (`none` if a segment node has
no predecessor, where the C dereferences a null pointer); ClosePath emits
nothing. -/
noncomputable def interpolate_path : List Node → Option Node → ℕ → Option (List WarpC)
  | [], _, _ => some []
  | nd :: rest, prev, fuel =>
    let cont := interpolate_path rest (some nd) fuel
    match nd with
    | .moveTo _ w =>
      if rest.isEmpty then cont.map fun l => toC w :: l else cont
    | .lineTo _ w =>
      match prev with
      | none => none
      | some pv =>
        match interpolate_line (toC (warpOf pv)) (toC w)
            (castC (ptOf pv)) (castC w.point) fuel 0 with
        | none => none
        | some seg => cont.map fun l => seg ++ l
    | .curveTo _ w c1 c2 =>
      match prev with
      | none => none
      | some pv =>
        let pts := (interpolate_cubic_bezier (ptOf pv) c1 c2 w.point 100).map castC
        match interpolate_curve (toC (warpOf pv)) (toC w) pts fuel 0 (1, 0) with
        | none => none
        | some seg => cont.map fun l => seg ++ l
    | .closePath _ => cont

/-- Termination of the interpolator on a path: some finite fuel suffices for
every sampling loop on the path. -/
def InterpolatesFinitely (p : List Node) : Prop :=
  ∃ fuel l, interpolate_path p none fuel = some l


end Liquify

namespace Liquify

/-! # Theorems -/

/-! ## Integer square root -/

theorem isqrtGo_spec (n : ℕ) : ∀ f s, s * s ≤ n → n < (s + f + 1) * (s + f + 1) →
    isqrtGo n f s * isqrtGo n f s ≤ n ∧ n < (isqrtGo n f s + 1) * (isqrtGo n f s + 1) := by
  intro f
  induction f with
  | zero =>
    intro s h1 h2
    simpa [isqrtGo] using ⟨h1, by simpa using h2⟩
  | succ f ih =>
    intro s h1 h2
    by_cases h : (s + 1) * (s + 1) ≤ n
    · have h2' : n < (s + 1 + f + 1) * (s + 1 + f + 1) := by
        have e : s + 1 + f + 1 = s + (f + 1) + 1 := by omega
        rw [e]; exact h2
      have := ih (s + 1) h h2'
      simpa [isqrtGo, h] using this
    · simp only [isqrtGo, h, if_false]
      exact ⟨h1, Nat.lt_of_not_le h⟩

theorem isqrt_spec (n : ℕ) : isqrt n * isqrt n ≤ n ∧ n < (isqrt n + 1) * (isqrt n + 1) := by
  have := isqrtGo_spec n n 0 (by simp) (by nlinarith)
  simpa [isqrt] using this

theorem isqrt_unique {n s : ℕ} (h1 : s * s ≤ n) (h2 : n < (s + 1) * (s + 1)) :
    isqrt n = s := by
  obtain ⟨g1, g2⟩ := isqrt_spec n
  by_contra hne
  rcases Nat.lt_or_ge (isqrt n) s with h | h
  · have : isqrt n + 1 ≤ s := h
    have : (isqrt n + 1) * (isqrt n + 1) ≤ s * s := Nat.mul_le_mul this this
    omega
  · have hs : s < isqrt n := by omega
    have : s + 1 ≤ isqrt n := hs
    have : (s + 1) * (s + 1) ≤ isqrt n * isqrt n := Nat.mul_le_mul this this
    omega

theorem isqrt_sq (k : ℕ) : isqrt (k * k) = k :=
  isqrt_unique (le_refl _) (by nlinarith)

theorem isqrt_mono {m n : ℕ} (h : m ≤ n) : isqrt m ≤ isqrt n := by
  obtain ⟨m1, m2⟩ := isqrt_spec m
  obtain ⟨n1, n2⟩ := isqrt_spec n
  by_contra hc
  have : isqrt n + 1 ≤ isqrt m := by omega
  have : (isqrt n + 1) * (isqrt n + 1) ≤ isqrt m * isqrt m := Nat.mul_le_mul this this
  omega

/-- Characterisation of `roundSqrtQ` as round-half-up of `√q`, stated in
exact rational arithmetic: writing `N = roundSqrtQ q` we have
`q < (N + 1/2)²`, and `(N - 1/2)² ≤ q` whenever `N ≥ 1` (for `N = 0` the
lower bound is vacuous). -/
theorem roundSqrtQ_spec (q : ℚ) (hq : 0 ≤ q) :
    q < ((roundSqrtQ q : ℚ) + 1/2) ^ 2 ∧
    (1 ≤ roundSqrtQ q → ((roundSqrtQ q : ℚ) - 1/2) ^ 2 ≤ q) := by
  set a : ℕ := q.num.toNat with ha
  set b : ℕ := q.den with hb
  have hbpos : 0 < b := q.pos
  have hqa : (q : ℚ) = (a : ℚ) / (b : ℚ) := by
    have hnum : ((a : ℕ) : ℚ) = (q.num : ℚ) := by
      rw [ha]
      exact_mod_cast Int.toNat_of_nonneg (Rat.num_nonneg.mpr hq)
    rw [hnum, hb]
    exact (Rat.num_div_den q).symm
  set s : ℕ := isqrt (4 * a * b) with hs
  obtain ⟨s1, s2⟩ := isqrt_spec (4 * a * b)
  rw [← hs] at s1 s2
  set N : ℕ := (s + b) / (2 * b) with hN
  have hmod := Nat.div_add_mod (s + b) (2 * b)
  rw [← hN] at hmod
  have hmlt : (s + b) % (2 * b) < 2 * b := Nat.mod_lt _ (by omega)
  have hub : 2 * b * N ≤ s + b := by omega
  have hlb : s + b < 2 * b * (N + 1) := by
    have : 2 * b * (N + 1) = 2 * b * N + 2 * b := by ring
    omega
  constructor
  · -- q < (N + 1/2)²: from 4ab < (s+1)² and s + 1 ≤ 2bN + b
    have hs1 : s + 1 ≤ 2 * b * N + b := by
      have : 2 * b * (N + 1) = 2 * b * N + 2 * b := by ring
      omega
    have key : 4 * a * b < (2 * b * N + b) * (2 * b * N + b) :=
      lt_of_lt_of_le s2 (Nat.mul_le_mul hs1 hs1)
    have keyQ : (4 * a * b : ℚ) < ((2 * b * N + b : ℕ) : ℚ) * ((2 * b * N + b : ℕ) : ℚ) := by
      exact_mod_cast key
    have hrs : roundSqrtQ q = N := rfl
    rw [hrs, hqa, div_lt_iff₀ (by exact_mod_cast hbpos)]
    have hb2 : (0 : ℚ) < (b : ℚ) := by exact_mod_cast hbpos
    push_cast at keyQ ⊢
    nlinarith [keyQ, hb2, sq_nonneg ((N : ℚ) + 1/2)]
  · -- (N - 1/2)² ≤ q when N ≥ 1: from (2bN - b) ≤ s and s² ≤ 4ab
    intro hN1
    have hlow : 2 * b * N - b ≤ s := by omega
    have hbN : b ≤ 2 * b * N := by
      calc b = b * 1 := by ring
      _ ≤ 2 * b * N := by
        have : 1 ≤ N := hN1
        nlinarith
    have key : (2 * b * N - b) * (2 * b * N - b) ≤ 4 * a * b :=
      le_trans (Nat.mul_le_mul hlow hlow) s1
    have keyQ : (((2 * b * N - b : ℕ)) : ℚ) * (((2 * b * N - b : ℕ)) : ℚ) ≤ (4 * a * b : ℚ) := by
      exact_mod_cast key
    have hcast : (((2 * b * N - b : ℕ)) : ℚ) = 2 * (b : ℚ) * (N : ℚ) - (b : ℚ) := by
      rw [Nat.cast_sub hbN]
      push_cast
      ring
    rw [hcast] at keyQ
    have hrs : roundSqrtQ q = N := rfl
    rw [hrs, hqa, le_div_iff₀ (by exact_mod_cast hbpos)]
    have hb2 : (0 : ℚ) < (b : ℚ) := by exact_mod_cast hbpos
    nlinarith [keyQ, hb2, sq_nonneg ((N : ℚ) - 1/2)]

/-! ## Serialization: round trip and malformed blobs (claims C1, C3) -/

theorem nodeSize_pos (n : Node) : 0 < nodeSize n := by
  cases n <;> simp [nodeSize]

theorem sum_nodeSize_pos (p : List Node) (hp : p ≠ []) : 0 < (p.map nodeSize).sum := by
  match p, hp with
  | n :: tl, _ =>
    have := nodeSize_pos n
    simp only [List.map_cons, List.sum_cons]
    omega

theorem parseStep_record (n : Node) (rest : List BItem) (b : ℕ) (acc : List Node)
    (ps : List (List Node)) :
    parseStep (encodeNode n :: rest) (.reading b acc) ps =
      (if nodeSize n < b then parseStep rest (.reading (b - nodeSize n) (acc ++ [n])) ps
       else if nodeSize n = b then parseStep rest .between (ps ++ [acc ++ [n]])
       else none) := by
  cases n <;> simp [encodeNode, parseStep, expectedSize, nodeSize, decodeNode]

theorem parseStep_psize (n : ℕ) (rest : List BItem) (ps : List (List Node)) :
    parseStep (.psize n :: rest) .between ps =
      (if n < 8 then none
       else if n = 8 then parseStep rest .between (ps ++ [[]])
       else parseStep rest (.reading (n - 8) []) ps) := by
  simp [parseStep]

theorem parseStep_records (nodes : List Node) (hne : nodes ≠ []) :
    ∀ (rest : List BItem) (acc : List Node) (ps : List (List Node)),
    parseStep (nodes.map encodeNode ++ rest) (.reading ((nodes.map nodeSize).sum) acc) ps =
      parseStep rest .between (ps ++ [acc ++ nodes]) := by
  induction nodes with
  | nil => exact absurd rfl hne
  | cons n tl ih =>
    intro rest acc ps
    rcases eq_or_ne tl [] with htl | htl
    · subst htl
      simp only [List.map_cons, List.map_nil, List.sum_cons, List.sum_nil, Nat.add_zero,
        List.cons_append, List.nil_append]
      rw [parseStep_record]
      simp
    · have hpos : 0 < (tl.map nodeSize).sum := sum_nodeSize_pos tl htl
      simp only [List.map_cons, List.sum_cons, List.cons_append]
      rw [parseStep_record, if_pos (by omega)]
      have h2 : nodeSize n + (tl.map nodeSize).sum - nodeSize n = (tl.map nodeSize).sum := by
        omega
      rw [h2, ih htl rest (acc ++ [n]) ps]
      simp

theorem parseStep_serialize (D : Doc) :
    ∀ (rest : List BItem) (ps : List (List Node)),
    parseStep (serialize_paths D ++ rest) .between ps = parseStep rest .between (ps ++ D) := by
  induction D with
  | nil => intro rest ps; simp [serialize_paths]
  | cons p D2 ih =>
    intro rest ps
    have hser : serialize_paths (p :: D2) =
        BItem.psize (8 + (p.map nodeSize).sum) :: (p.map encodeNode ++ serialize_paths D2) := by
      simp [serialize_paths]
    rw [hser, List.cons_append, parseStep_psize]
    rcases eq_or_ne p [] with hp | hp
    · subst hp
      have h1 : ¬ (8 + (List.map nodeSize ([] : List Node)).sum < 8) := by simp
      have h2 : 8 + (List.map nodeSize ([] : List Node)).sum = 8 := by simp
      rw [if_neg h1, if_pos h2]
      simp only [List.map_nil, List.nil_append, List.append_assoc]
      rw [ih]
      simp
    · have hpos : 0 < (p.map nodeSize).sum := sum_nodeSize_pos p hp
      rw [if_neg (by omega), if_neg (by omega)]
      have h8 : 8 + (p.map nodeSize).sum - 8 = (p.map nodeSize).sum := by omega
      rw [h8, List.append_assoc, parseStep_records p hp, ih]
      simp

/-- Deserialising a serialised document recovers it exactly. -/
theorem unserialize_serialize (D : Doc) :
    unserialize_paths (serialize_paths D) = some D := by
  have h := parseStep_serialize D [] []
  rw [List.append_nil] at h
  rw [unserialize_paths, h]
  simp [parseStep]

/-- C1: for every Document `D`, serialising, deserialising, and serialising
again yields a byte-identical parameter blob:
`serialize (deserialize (serialize D)) = serialize D`. -/
theorem serialize_deserialize_serialize (D : Doc) :
    serialize_params ((unserialize_params (serialize_params D)).getD []) =
      serialize_params D := by
  have h : unserialize_params (serialize_params D) = some D := by
    rw [serialize_params, unserialize_params]
    simp [unserialize_serialize]
  rw [h]
  rfl

/-- C3 (code evaluation): a version-1 blob containing a single path of a
valid MoveTo record followed by a record whose declared size 100 disagrees
with its declared LineTo kind (96 required) parses to a document that still
contains the MoveTo of that path — the path is truncated, not skipped as a
whole.  A blob with version 4 in contrast yields the empty document. -/
theorem unserialize_keeps_truncated_path_prefix :
    unserialize_params ⟨204, 1,
      [.psize 204,
       .record 96 0 0 0 0 ⟨(1, 2), (3, 4), (5, 6), 0, 1, 0⟩ (0, 0) (0, 0),
       .record 100 1 0 0 0 ⟨(7, 8), (9, 10), (11, 12), 0, 1, 0⟩ (0, 0) (0, 0)]⟩ =
      some [[Node.moveTo ⟨0, 0, 0⟩ ⟨(1, 2), (3, 4), (5, 6), 0, 1, 0⟩]] ∧
    unserialize_params ⟨204, 4,
      [.psize 204,
       .record 96 0 0 0 0 ⟨(1, 2), (3, 4), (5, 6), 0, 1, 0⟩ (0, 0) (0, 0),
       .record 100 1 0 0 0 ⟨(7, 8), (9, 10), (11, 12), 0, 1, 0⟩ (0, 0) (0, 0)]⟩ =
      some [] := by
  constructor <;> rfl

/-! ## Node deletion (claim C7) -/

/-- C7: deleting the head MoveTo of a path `[MoveTo at A, LineTo at B]`
leaves exactly one node: still a MoveTo at the head, with anchor `B`, and
with the radius and strength points of the deleted head's successor, so its
radius magnitude equals the original LineTo's radius magnitude. -/
theorem delete_node_heals_head (h1 h2 : Hdr) (A B s1 r1 s2 r2 : CQ)
    (c1a c2a c1b c2b : ℚ) (t1 t2 : ℕ) :
    delete_node [[Node.moveTo h1 ⟨A, s1, r1, c1a, c2a, t1⟩,
                  Node.lineTo h2 ⟨B, s2, r2, c1b, c2b, t2⟩]] 0 0 =
      some [[Node.moveTo h1 ⟨B, s2, r2, c1a, c2a, t1⟩]] ∧
    ptOf (Node.moveTo h1 ⟨B, s2, r2, c1a, c2a, t1⟩) = B ∧
    normSqQ ((warpOf (Node.moveTo h1 ⟨B, s2, r2, c1a, c2a, t1⟩)).radius
             - (warpOf (Node.moveTo h1 ⟨B, s2, r2, c1a, c2a, t1⟩)).point) =
      normSqQ ((warpOf (Node.lineTo h2 ⟨B, s2, r2, c1b, c2b, t2⟩)).radius
               - (warpOf (Node.lineTo h2 ⟨B, s2, r2, c1b, c2b, t2⟩)).point) :=
  ⟨rfl, rfl, rfl⟩

/-! ## Spline smoother on fully user-set paths (claim C9) -/

theorem smQ_zero (p : CQ) : smQ 0 p = 0 := by
  simp [smQ, Prod.ext_iff]

theorem smQ_one (p : CQ) : smQ 1 p = p := by
  simp [smQ]

theorem eqnSel_five (p : List Node) (hna : ∀ nd ∈ p, (hdrOf nd).node_type ≠ 3)
    {k : ℕ} (hk : k < p.length) : eqnSel p k = 5 := by
  cases hd : p.get? k with
  | none =>
    have := List.get?_eq_none.mp hd
    omega
  | some d =>
    have hauto : (((hdrOf d).node_type : ℕ) == 3) = false := by
      simp [hna d (List.get?_mem hd)]
    simp only [eqnSel]
    rw [hd]
    cases hnext : p.get? (k + 1) with
    | none => simp [hauto, hnext]
    | some n2 =>
      have h2 : (((hdrOf n2).node_type : ℕ) == 3) = false := by
        simp [hna n2 (List.get?_mem hnext)]
      simp only [hauto, h2, hnext, Bool.not_false, Bool.and_self, Bool.and_false,
        Bool.false_and, Bool.and_true, Bool.cond_false, Bool.cond_true]
      cases (kindOf n2 == 1) <;> simp

theorem rowA_five (p : List Node) (hna : ∀ nd ∈ p, (hdrOf nd).node_type ≠ 3)
    {k : ℕ} (hk : k < p.length) : rowA p k = 0 := by
  simp [rowA, eqnSel_five p hna hk]

theorem rowB_five (p : List Node) (hna : ∀ nd ∈ p, (hdrOf nd).node_type ≠ 3)
    {k : ℕ} (hk : k < p.length) : rowB p k = 1 := by
  simp [rowB, eqnSel_five p hna hk]

theorem rowD_five (p : List Node) (hna : ∀ nd ∈ p, (hdrOf nd).node_type ≠ 3)
    {k : ℕ} (hk : k < p.length) : rowD p k = c1Arr p k := by
  simp [rowD, eqnSel_five p hna hk]

theorem thomasFwd_five (p : List Node) (hna : ∀ nd ∈ p, (hdrOf nd).node_type ≠ 3) :
    ∀ i, i < p.length → thomasFwd p i = (1, c1Arr p i) := by
  intro i
  induction i with
  | zero =>
    intro h0
    simp [thomasFwd, rowB_five p hna h0, rowD_five p hna h0]
  | succ i ih =>
    intro h
    have hi : i < p.length := by omega
    rw [thomasFwd, ih hi]
    simp [rowA_five p hna h, rowB_five p hna h, rowD_five p hna h, smQ_zero]

theorem thomasBack_five (p : List Node) (hna : ∀ nd ∈ p, (hdrOf nd).node_type ≠ 3)
    (m : ℕ) (hm : m + 1 = p.length) :
    ∀ s, s ≤ m - 1 → thomasBack p m s = c1Arr p (m - 1 - s) := by
  intro s
  induction s with
  | zero =>
    intro _
    have hm1 : m - 1 < p.length := by omega
    rw [thomasBack, thomasFwd_five p hna _ hm1]
    simp [smQ_one]
  | succ s ih =>
    intro hs
    have hi : m - 2 - s < p.length := by omega
    rw [thomasBack, thomasFwd_five p hna _ hi]
    have hc : rowC p (m - 2 - s) = 0 := by
      simp [rowC, eqnSel_five p hna hi]
    rw [hc, smQ_zero, sub_zero]
    have harith : m - 1 - (s + 1) = m - 2 - s := by omega
    rw [harith]
    simp [smQ_one]

theorem c1Post_five (p : List Node) (hna : ∀ nd ∈ p, (hdrOf nd).node_type ≠ 3)
    (m : ℕ) (hm : m + 1 = p.length) (i : ℕ) : c1Post p m i = c1Arr p i := by
  rw [c1Post]
  split
  · rename_i hi
    rw [c1Sol, thomasBack_five p hna m hm _ (by omega)]
    congr 1
    omega
  · rfl

theorem c2Sol_five (p : List Node) (hna : ∀ nd ∈ p, (hdrOf nd).node_type ≠ 3)
    (m : ℕ) {i : ℕ} (hi : i < p.length) : c2Sol p m i = c2Arr p i := by
  simp [c2Sol, eqnSel_five p hna hi]

theorem writeBackGo_id (p : List Node) (hna : ∀ nd ∈ p, (hdrOf nd).node_type ≠ 3)
    (m : ℕ) (hm : m + 1 = p.length) :
    ∀ (tl : List Node) (k : ℕ), (∀ j, tl.get? j = p.get? (k + 1 + j)) →
    writeBackGo p m k tl = tl := by
  intro tl
  induction tl with
  | nil => intro k _; rfl
  | cons nd rest ih =>
    intro k hsh
    have hnd : p.get? (k + 1) = some nd := by
      have := hsh 0
      simpa using this.symm
    have hk : k < p.length := by
      have h1 : k + 1 < p.length := by
        by_contra hcon
        rw [List.get?_eq_none.mpr (by omega)] at hnd
        exact Option.noConfusion hnd
      omega
    have htail : writeBackGo p m (k + 1) rest = rest := by
      apply ih
      intro j
      have := hsh (j + 1)
      rw [List.get?_cons_succ] at this
      rw [this]
      congr 1
      omega
    cases nd with
    | curveTo h w a b =>
      have hc1 : c1Arr p k = a := by
        simp only [c1Arr, hnd]
      have hc2 : c2Arr p k = b := by
        simp only [c2Arr, hnd]
      show Node.curveTo h w (c1Post p m k) (c2Sol p m k) :: writeBackGo p m (k + 1) rest =
        Node.curveTo h w a b :: rest
      rw [htail, c1Post_five p hna _ hm, c2Sol_five p hna m hk, hc1, hc2]
    | moveTo h w =>
      show Node.moveTo h w :: writeBackGo p m (k + 1) rest = Node.moveTo h w :: rest
      rw [htail]
    | lineTo h w =>
      show Node.lineTo h w :: writeBackGo p m (k + 1) rest = Node.lineTo h w :: rest
      rw [htail]
    | closePath h =>
      show Node.closePath h :: writeBackGo p m (k + 1) rest = Node.closePath h :: rest
      rw [htail]

theorem smoothPathWriteBack_id (p : List Node)
    (hna : ∀ nd ∈ p, (hdrOf nd).node_type ≠ 3) (hlen : 2 ≤ p.length) :
    smoothPathWriteBack p = p := by
  match p, hlen with
  | first :: rest, _ =>
    rw [smoothPathWriteBack]
    have hlen2 : (first :: rest).length - 1 = rest.length := by simp
    rw [hlen2]
    rw [writeBackGo_id (first :: rest) hna (rest.length) (by simp) rest 0
      (fun j => by
        rw [show 0 + 1 + j = j + 1 by omega]
        simp)]

theorem map_id_of_mem {α : Type} {l : List α} {f : α → α} (h : ∀ x ∈ l, f x = x) :
    l.map f = l := by
  induction l with
  | nil => rfl
  | cons x t ih => simp_all

/-- C9: on a document in which no node has node type AutoSmooth, the
smoother changes nothing (every segment receives the keep/keep equation 5,
which forces `c1` to the user value and leaves `c2` untouched); in
particular the smoother is idempotent on such documents. -/
theorem smoother_identity_on_user_paths (paths : Doc)
    (hna : ∀ p ∈ paths, ∀ nd ∈ p, (hdrOf nd).node_type ≠ 3) :
    smooth_paths_linsys paths = paths ∧
    smooth_paths_linsys (smooth_paths_linsys paths) = smooth_paths_linsys paths := by
  have h1 : smooth_paths_linsys paths = paths := by
    rw [smooth_paths_linsys]
    apply map_id_of_mem
    intro p hp
    split
    · rfl
    · rename_i hlen
      exact smoothPathWriteBack_id p (hna p hp) (by omega)
  exact ⟨h1, by rw [h1, h1]⟩

/-- Witness for C9 at a concrete two-node path of Cusp nodes. -/
theorem smoother_identity_witness :
    (∀ p ∈ ([[Node.moveTo ⟨0, 0, 0⟩ ⟨(1, 1), (2, 2), (3, 3), 0, 1, 0⟩,
              Node.curveTo ⟨0, 0, 0⟩ ⟨(4, 4), (5, 5), (6, 6), 0, 1, 0⟩ (1, 2) (3, 4)]] : Doc),
        ∀ nd ∈ p, (hdrOf nd).node_type ≠ 3) ∧
    smooth_paths_linsys [[Node.moveTo ⟨0, 0, 0⟩ ⟨(1, 1), (2, 2), (3, 3), 0, 1, 0⟩,
              Node.curveTo ⟨0, 0, 0⟩ ⟨(4, 4), (5, 5), (6, 6), 0, 1, 0⟩ (1, 2) (3, 4)]] =
      [[Node.moveTo ⟨0, 0, 0⟩ ⟨(1, 1), (2, 2), (3, 3), 0, 1, 0⟩,
              Node.curveTo ⟨0, 0, 0⟩ ⟨(4, 4), (5, 5), (6, 6), 0, 1, 0⟩ (1, 2) (3, 4)]] :=
  ⟨by decide, (smoother_identity_on_user_paths _ (by decide)).1⟩

/-! ## Stamp compositor: read-out of the octant writes (claims C2, C5, C8) -/

theorem foldl_update_not_mem {κ ν : Type} [DecidableEq κ] (l : List (κ × ν)) (q : κ) :
    (∀ e ∈ l, e.1 ≠ q) → ∀ g : κ → ν,
    (l.foldl (fun f e => Function.update f e.1 e.2) g) q = g q := by
  induction l with
  | nil => intro _ _; rfl
  | cons e t ih =>
    intro h g
    rw [List.foldl_cons, ih (fun x hx => h x (List.mem_cons_of_mem e hx)) _]
    exact Function.update_noteq (fun hq => h e (List.mem_cons_self e t) hq.symm) _ _

theorem foldl_update_mem {κ ν : Type} [DecidableEq κ] (l : List (κ × ν)) (q : κ) (v : ν) :
    (∃ e ∈ l, e.1 = q) → (∀ e ∈ l, e.1 = q → e.2 = v) → ∀ g : κ → ν,
    (l.foldl (fun f e => Function.update f e.1 e.2) g) q = v := by
  induction l with
  | nil =>
    rintro ⟨e, he, _⟩
    cases he
  | cons e t ih =>
    intro hmem hval g
    rw [List.foldl_cons]
    by_cases ht : ∃ x ∈ t, x.1 = q
    · exact ih ht (fun x hx hq => hval x (List.mem_cons_of_mem _ hx) hq) _
    · rw [foldl_update_not_mem t q (fun x hx hq => ht ⟨x, hx, hq⟩) _]
      rcases hmem with ⟨e2, he2, hq2⟩
      rcases List.mem_cons.mp he2 with rfl | he2t
      · rw [← hq2, Function.update_same]
        exact hval e2 (List.mem_cons_self _ _) hq2
      · exact absurd ⟨e2, he2t, hq2⟩ ht

theorem idistN_comm (x y : ℕ) : idistN x y = idistN y x := by
  rw [idistN, idistN]
  congr 1
  ring

theorem roundSqrtNat_mono {m n : ℕ} (h : m ≤ n) : roundSqrtNat m ≤ roundSqrtNat n := by
  have := isqrt_mono (show 4 * m ≤ 4 * n by omega)
  rw [roundSqrtNat, roundSqrtNat]
  omega

theorem idistN_mono_left {x x2 y : ℕ} (h : x ≤ x2) : idistN x y ≤ idistN x2 y := by
  apply roundSqrtNat_mono
  nlinarith

theorem idistN_mono_right {x y y2 : ℕ} (h : y ≤ y2) : idistN x y ≤ idistN x y2 := by
  apply roundSqrtNat_mono
  nlinarith

theorem roundSqrtNat_sq (k : ℕ) : roundSqrtNat (k * k) = k := by
  rw [roundSqrtNat]
  have : 4 * (k * k) = (2 * k) * (2 * k) := by ring
  rw [this, isqrt_sq]
  omega

theorem idistN_ge_ts {r x y : ℕ} (hx : r ≤ x) : r * 10 ≤ idistN x y := by
  have h1 : idistN r 0 ≤ idistN x y :=
    le_trans (idistN_mono_left hx) (idistN_mono_right (Nat.zero_le y))
  have h2 : idistN r 0 = r * 10 := by
    rw [idistN]
    have : 100 * (r * r + 0 * 0) = (10 * r) * (10 * r) := by ring
    rw [this, roundSqrtNat_sq]
    omega
  omega

theorem octantWrites_eq (w : WarpQ) (y x : ℕ) :
    octantWrites w y x = (octKeys x y).map fun k => (k, stampField w k) := by
  have hcomm : idistN y x = idistN x y := idistN_comm y x
  rcases hw : w.wtype with _ | _ | _ | k <;>
    simp only [octantWrites, stampField, octKeys, hw, List.map_cons, List.map_nil,
      Int.natAbs_neg, Int.natAbs_ofNat, hcomm] <;>
    push_cast <;>
    ring_nf

theorem mem_takeWhile_range' (pr : ℕ → Bool) :
    ∀ (n a x : ℕ), a ≤ x → x < a + n → (∀ z, a ≤ z → z ≤ x → pr z = true) →
    x ∈ (List.range' a n).takeWhile pr := by
  intro n
  induction n with
  | zero => intro a x h1 h2 _; omega
  | succ n ih =>
    intro a x h1 h2 hall
    rw [List.range'_succ, List.takeWhile_cons_of_pos (hall a le_rfl h1)]
    rcases eq_or_ne x a with rfl | hne
    · exact List.mem_cons_self _ _
    · exact List.mem_cons_of_mem _ (ih (a + 1) x (by omega) (by omega)
        fun z hz1 hz2 => hall z (by omega) hz2)

theorem octKeys_max_min {x y : ℕ} (hyx : y ≤ x) {k : ℤ × ℤ} (hk : k ∈ octKeys x y) :
    k.1.natAbs ⊔ k.2.natAbs = x ∧ k.1.natAbs ⊓ k.2.natAbs = y := by
  simp only [octKeys, List.mem_cons, List.not_mem_nil, or_false] at hk
  rcases hk with rfl | rfl | rfl | rfl | rfl | rfl | rfl | rfl <;>
    simp only [Int.natAbs_neg, Int.natAbs_ofNat, sup_eq_max, inf_eq_min] <;>
    omega

theorem octKeys_covers {x y : ℕ} {p : ℤ × ℤ} (hmax : p.1.natAbs ⊔ p.2.natAbs = x)
    (hmin : p.1.natAbs ⊓ p.2.natAbs = y) : p ∈ octKeys x y := by
  obtain ⟨a, b⟩ := p
  simp only [sup_eq_max, inf_eq_min] at hmax hmin
  simp only [octKeys, List.mem_cons, List.not_mem_nil, or_false, Prod.mk.injEq]
  rcases Int.natAbs_eq a with ha | ha <;> rcases Int.natAbs_eq b with hb | hb <;>
    rcases le_total a.natAbs b.natAbs with hab | hab
  · rw [max_eq_right hab] at hmax
    rw [min_eq_left hab] at hmin
    exact Or.inr (Or.inr (Or.inr (Or.inr (Or.inr (Or.inr (Or.inl ⟨by omega, by omega⟩))))))
  · rw [max_eq_left hab] at hmax
    rw [min_eq_right hab] at hmin
    exact Or.inr (Or.inr (Or.inr (Or.inr (Or.inr (Or.inr (Or.inr ⟨by omega, by omega⟩))))))
  · rw [max_eq_right hab] at hmax
    rw [min_eq_left hab] at hmin
    exact Or.inr (Or.inl ⟨by omega, by omega⟩)
  · rw [max_eq_left hab] at hmax
    rw [min_eq_right hab] at hmin
    exact Or.inl ⟨by omega, by omega⟩
  · rw [max_eq_right hab] at hmax
    rw [min_eq_left hab] at hmin
    exact Or.inr (Or.inr (Or.inr (Or.inr (Or.inr (Or.inl ⟨by omega, by omega⟩)))))
  · rw [max_eq_left hab] at hmax
    rw [min_eq_right hab] at hmin
    exact Or.inr (Or.inr (Or.inr (Or.inr (Or.inl ⟨by omega, by omega⟩))))
  · rw [max_eq_right hab] at hmax
    rw [min_eq_left hab] at hmin
    exact Or.inr (Or.inr (Or.inl ⟨by omega, by omega⟩))
  · rw [max_eq_left hab] at hmax
    rw [min_eq_right hab] at hmin
    exact Or.inr (Or.inr (Or.inr (Or.inl ⟨by omega, by omega⟩)))

theorem idistN_max_min (a b : ℕ) : idistN (a ⊔ b) (a ⊓ b) = idistN a b := by
  rcases le_total a b with h | h
  · rw [sup_eq_max, inf_eq_min, max_eq_right h, min_eq_left h, idistN_comm]
  · rw [sup_eq_max, inf_eq_min, max_eq_left h, min_eq_right h]

theorem mem_stampIterList {r ts : ℕ} {yx : ℕ × ℕ} (h : yx ∈ stampIterList r ts) :
    yx.1 ≤ yx.2 ∧ yx.2 ≤ r ∧ idistN yx.2 yx.1 < ts := by
  simp only [stampIterList, List.mem_flatMap, List.mem_map] at h
  obtain ⟨y, hy, x, hx, rfl⟩ := h
  have hpred : idistN x y < ts := by
    have := List.mem_takeWhile_imp hx
    simpa using this
  have hxr : x ∈ List.range' y (r + 1 - y) := (List.takeWhile_prefix _).sublist.subset hx
  rw [List.mem_range'_1] at hxr
  rw [List.mem_range] at hy
  exact ⟨by omega, by omega, hpred⟩

theorem stampIterList_mem {r ts : ℕ} {mn mx : ℕ} (h1 : mn ≤ mx) (h2 : mx ≤ r)
    (h3 : idistN mx mn < ts) : (mn, mx) ∈ stampIterList r ts := by
  simp only [stampIterList, List.mem_flatMap, List.mem_map]
  refine ⟨mn, List.mem_range.mpr (by omega), mx, ?_, rfl⟩
  apply mem_takeWhile_range' _ (r + 1 - mn) mn mx h1 (by omega)
  intro z hz1 hz2
  simp only [decide_eq_true_eq]
  exact lt_of_le_of_lt (idistN_mono_left hz2) h3

/-- Read-out of `build_round_stamp`: the stamp array holds `stampField` on
the pixels the octant loop reaches (inside the disk of radius `iradius` and
below the table-size cut-off) and zero elsewhere. -/
theorem build_round_stamp_eq (w : WarpQ) (p : ℤ × ℤ) :
    build_round_stamp w p =
      (if p.1.natAbs ⊔ p.2.natAbs ≤ iradiusQ w ∧
          idistN p.1.natAbs p.2.natAbs < iradiusQ w * 10
       then stampField w p else 0) := by
  have hvals : ∀ e ∈ stampWrites w, e.1 = p → e.2 = stampField w p ∧
      p.1.natAbs ⊔ p.2.natAbs ≤ iradiusQ w ∧
      idistN p.1.natAbs p.2.natAbs < iradiusQ w * 10 := by
    intro e he hq
    simp only [stampWrites, List.mem_flatMap] at he
    obtain ⟨yx, hyx, hin⟩ := he
    obtain ⟨hle, hr, hts⟩ := mem_stampIterList hyx
    rw [octantWrites_eq] at hin
    obtain ⟨k, hk, hke⟩ := List.mem_map.mp hin
    obtain ⟨hkmax, hkmin⟩ := octKeys_max_min hle hk
    have hkp : k = p := by
      rw [← hke] at hq
      exact hq
    subst hkp
    refine ⟨?_, ?_, ?_⟩
    · rw [← hke]
    · omega
    · have h5 : idistN (k.1.natAbs ⊔ k.2.natAbs) (k.1.natAbs ⊓ k.2.natAbs) <
          iradiusQ w * 10 := by
        rw [hkmax, hkmin]
        exact hts
      rw [idistN_max_min] at h5
      exact h5
  split
  · rename_i hcond
    obtain ⟨hmax, hdist⟩ := hcond
    rw [build_round_stamp]
    apply foldl_update_mem
    · refine ⟨(p, stampField w p), ?_, rfl⟩
      simp only [stampWrites, List.mem_flatMap]
      refine ⟨(p.1.natAbs ⊓ p.2.natAbs, p.1.natAbs ⊔ p.2.natAbs),
        stampIterList_mem inf_le_sup hmax ?_, ?_⟩
      · rw [idistN_max_min]
        exact hdist
      · rw [octantWrites_eq]
        exact List.mem_map_of_mem _ (octKeys_covers rfl rfl)
    · intro e he hq
      exact (hvals e he hq).1
  · rename_i hcond
    rw [build_round_stamp]
    rw [foldl_update_not_mem _ p (fun e he hq => hcond (hvals e he hq).2) _]

/-! ## Degenerate warps abort map building (claim C2) -/

theorem stampExtents_none {ws : List WarpQ} {w : WarpQ} (hw : w ∈ ws)
    (h0 : iradiusQ w = 0) : stampExtents ws = none := by
  induction ws with
  | nil => cases hw
  | cons v t ih =>
    rcases List.mem_cons.mp hw with rfl | hmem
    · simp [stampExtents, compute_round_stamp_extent, h0]
    · have hred : stampExtents (v :: t) =
        match compute_round_stamp_extent v with
        | none => none
        | some r =>
          match stampExtents t with
          | none => none
          | some rs => some (r :: rs) := rfl
      rw [hred, ih hmem]
      cases compute_round_stamp_extent v <;> rfl

/-- C2 (amended): a sampled warp whose radius magnitude rounds to zero makes
the displacement-map build fail its `assert (iradius > 0)` — the run aborts
(`none`), the stamp is not skipped silently. -/
theorem degenerate_warp_aborts (roi : Rect) (ws : List WarpQ) (w : WarpQ)
    (hw : w ∈ ws) (h0 : iradiusQ w = 0) :
    build_global_distortion_map roi ws = none ∧ _get_map_extent roi ws = none := by
  have h := stampExtents_none hw h0
  constructor
  · rw [build_global_distortion_map, _get_map_extent, h]
  · rw [_get_map_extent, h]

/-- Witness for C2 at a concrete degenerate warp (`radius = point`). -/
theorem degenerate_warp_aborts_witness :
    ((⟨(5, 5), (6, 5), (5, 5), 1/2, 3/4, 1⟩ : WarpQ) ∈
      [(⟨(5, 5), (6, 5), (5, 5), 1/2, 3/4, 1⟩ : WarpQ)]) ∧
    iradiusQ ⟨(5, 5), (6, 5), (5, 5), 1/2, 3/4, 1⟩ = 0 ∧
    (build_global_distortion_map ⟨0, 0, 100, 100⟩
        [⟨(5, 5), (6, 5), (5, 5), 1/2, 3/4, 1⟩] = none ∧
      _get_map_extent ⟨0, 0, 100, 100⟩ [⟨(5, 5), (6, 5), (5, 5), 1/2, 3/4, 1⟩] = none) :=
  have h0 : iradiusQ ⟨(5, 5), (6, 5), (5, 5), 1/2, 3/4, 1⟩ = 0 := by
    norm_num [iradiusQ, normSqQ, roundSqrtQ, Prod.fst_sub, Prod.snd_sub,
      show isqrt 0 = 0 from rfl]
  ⟨List.mem_singleton_self _, h0,
    degenerate_warp_aborts ⟨0, 0, 100, 100⟩ _ _ (List.mem_singleton_self _) h0⟩

/-- C2 (counterexample to the claim as stated): with a degenerate warp the
map build does not behave as if the warp were absent — it aborts, while the
empty warp list yields an (empty) extent. -/
theorem degenerate_warp_not_skipped :
    _get_map_extent ⟨0, 0, 100, 100⟩ [⟨(5, 5), (6, 5), (5, 5), 1/2, 3/4, 1⟩] ≠
      _get_map_extent ⟨0, 0, 100, 100⟩ [] := by
  have h0 : iradiusQ ⟨(5, 5), (6, 5), (5, 5), 1/2, 3/4, 1⟩ = 0 := by
    norm_num [iradiusQ, normSqQ, roundSqrtQ, Prod.fst_sub, Prod.snd_sub,
      show isqrt 0 = 0 from rfl]
  have hL : _get_map_extent ⟨0, 0, 100, 100⟩
      [⟨(5, 5), (6, 5), (5, 5), 1/2, 3/4, 1⟩] = none := by
    rw [_get_map_extent, stampExtents_none (List.mem_singleton_self _) h0]
  rw [hL]
  simp [_get_map_extent, stampExtents, regionExtents]

/-! ## The linear stamp value (claim C5) -/

/-- C5 (amended): for a linear warp, every pixel of the round stamp inside
the lookup range holds `0.5 * (strength - point)` scaled by the lookup-table
value at its oversampled distance index; at or beyond the table range the
stamp is 0.  (The factor `0.5` comes from
`strength = 0.5 * (warp->strength - warp->point)` in `build_round_stamp`.) -/
theorem linear_stamp_value (w : WarpQ) (p : ℤ × ℤ) (hl : w.wtype = 0)
    (hin : p.1 * p.1 + p.2 * p.2 ≤ (iradiusQ w : ℤ) * (iradiusQ w : ℤ)) :
    (idistN p.1.natAbs p.2.natAbs < iradiusQ w * 10 →
      build_round_stamp w p =
        castC (smQ (1 / 2) (w.strength - w.point)) *
          (((build_lookup_table (iradiusQ w * 10) w.control1 w.control2).getD
              (idistN p.1.natAbs p.2.natAbs) 0 : ℚ) : ℂ)) ∧
    (iradiusQ w * 10 ≤ idistN p.1.natAbs p.2.natAbs →
      build_round_stamp w p = 0) := by
  have hsq : p.1.natAbs * p.1.natAbs + p.2.natAbs * p.2.natAbs ≤
      iradiusQ w * iradiusQ w := by
    zify
    rw [abs_mul_abs_self, abs_mul_abs_self]
    exact hin
  have hmax : p.1.natAbs ⊔ p.2.natAbs ≤ iradiusQ w := by
    rcases le_or_lt (p.1.natAbs ⊔ p.2.natAbs) (iradiusQ w) with h | h
    · exact h
    · exfalso
      rcases lt_sup_iff.mp h with h | h <;> nlinarith
  constructor
  · intro hd
    rw [build_round_stamp_eq, if_pos ⟨hmax, hd⟩]
    simp only [stampField, hl]
  · intro hd
    rw [build_round_stamp_eq, if_neg fun hc => absurd hc.2 (not_lt.mpr hd)]

/-- Witness for C5 at the warp `point 0, strength 10, radius 1`, pixel
`(0, 0)`. -/
theorem linear_stamp_value_witness :
    (⟨(0, 0), (10, 0), (1, 0), 1/2, 1/2, 0⟩ : WarpQ).wtype = 0 ∧
    ((0 : ℤ) * 0 + 0 * 0 ≤
        (iradiusQ ⟨(0, 0), (10, 0), (1, 0), 1/2, 1/2, 0⟩ : ℤ) *
          (iradiusQ ⟨(0, 0), (10, 0), (1, 0), 1/2, 1/2, 0⟩ : ℤ)) ∧
    ((idistN (0 : ℤ).natAbs (0 : ℤ).natAbs <
        iradiusQ ⟨(0, 0), (10, 0), (1, 0), 1/2, 1/2, 0⟩ * 10 →
      build_round_stamp ⟨(0, 0), (10, 0), (1, 0), 1/2, 1/2, 0⟩ (0, 0) =
        castC (smQ (1 / 2) ((10, 0) - ((0 : ℚ), (0 : ℚ)))) *
          (((build_lookup_table
              (iradiusQ ⟨(0, 0), (10, 0), (1, 0), 1/2, 1/2, 0⟩ * 10)
              (1/2) (1/2)).getD (idistN (0 : ℤ).natAbs (0 : ℤ).natAbs) 0 : ℚ) : ℂ)) ∧
    (iradiusQ ⟨(0, 0), (10, 0), (1, 0), 1/2, 1/2, 0⟩ * 10 ≤
        idistN (0 : ℤ).natAbs (0 : ℤ).natAbs →
      build_round_stamp ⟨(0, 0), (10, 0), (1, 0), 1/2, 1/2, 0⟩ (0, 0) = 0)) := by
  have hr1 : iradiusQ ⟨(0, 0), (10, 0), (1, 0), 1/2, 1/2, 0⟩ = 1 := by
    norm_num [iradiusQ, normSqQ, roundSqrtQ, Prod.fst_sub, Prod.snd_sub,
      show isqrt 4 = 2 from by decide]
  refine ⟨rfl, ?_, linear_stamp_value _ ((0 : ℤ), (0 : ℤ)) rfl ?_⟩ <;>
    · rw [hr1]; norm_num

/-- C5 (counterexample to the claim as stated): at the center pixel of the
stamp of a linear warp with `strength - point = 10` the stamp value is 5
(half the strength vector), not 10 as the un-halved formula
`(strength - point) * lookup[d]` would give. -/
theorem linear_stamp_cex :
    build_round_stamp ⟨(0, 0), (10, 0), (1, 0), 1/2, 1/2, 0⟩ (0, 0) ≠
      castC ((10, 0) - ((0 : ℚ), (0 : ℚ))) *
        (((build_lookup_table
            (iradiusQ ⟨(0, 0), (10, 0), (1, 0), 1/2, 1/2, 0⟩ * 10)
            (1/2) (1/2)).getD (idistN (0 : ℤ).natAbs (0 : ℤ).natAbs) 0 : ℚ) : ℂ) := by
  have hr1 : iradiusQ ⟨(0, 0), (10, 0), (1, 0), 1/2, 1/2, 0⟩ = 1 := by
    norm_num [iradiusQ, normSqQ, roundSqrtQ, Prod.fst_sub, Prod.snd_sub,
      show isqrt 4 = 2 from by decide]
  have hc : (0 : ℤ).natAbs ⊔ (0 : ℤ).natAbs ≤
      iradiusQ ⟨(0, 0), (10, 0), (1, 0), 1/2, 1/2, 0⟩ ∧
      idistN (0 : ℤ).natAbs (0 : ℤ).natAbs <
        iradiusQ ⟨(0, 0), (10, 0), (1, 0), 1/2, 1/2, 0⟩ * 10 := by
    rw [hr1]; exact (by decide)
  have hbs : build_round_stamp ⟨(0, 0), (10, 0), (1, 0), 1/2, 1/2, 0⟩
      ((0 : ℤ), (0 : ℤ)) =
      stampField ⟨(0, 0), (10, 0), (1, 0), 1/2, 1/2, 0⟩ ((0 : ℤ), (0 : ℤ)) := by
    rw [build_round_stamp_eq, if_pos hc]
  rw [hbs]
  rw [show stampField ⟨(0, 0), (10, 0), (1, 0), 1/2, 1/2, 0⟩ ((0 : ℤ), (0 : ℤ)) =
      castC (smQ (1 / 2) ((10, 0) - ((0 : ℚ), (0 : ℚ)))) *
        (((build_lookup_table
            (iradiusQ ⟨(0, 0), (10, 0), (1, 0), 1/2, 1/2, 0⟩ * 10)
            (1/2) (1/2)).getD (idistN (0 : ℤ).natAbs (0 : ℤ).natAbs) 0 : ℚ) : ℂ)
      from rfl]
  rw [hr1]
  rw [show (build_lookup_table (1 * 10) (1/2) (1/2)).getD
      (idistN (0 : ℤ).natAbs (0 : ℤ).natAbs) 0 = 1 from rfl]
  simp only [Rat.cast_one, mul_one]
  intro hceq
  have hre := congrArg Complex.re hceq
  simp only [castC] at hre
  norm_num [smQ, Prod.fst_sub, Prod.snd_sub] at hre

/-! ## Radial stamp symmetry (claim C8) -/

theorem add_map_apply (g : (ℤ × ℤ) → ℂ) (gext : Rect) (w : WarpQ)
    (st : (ℤ × ℤ) → ℂ) (sext : Rect) (p : ℤ × ℤ) :
    add_to_global_distortion_map g gext w st sext p =
      (if inRect (interRect ⟨sext.x + croundQ w.point.1, sext.y + croundQ w.point.2,
          sext.width, sext.height⟩ gext) p
       then g p - st (p.1 - (sext.x + croundQ w.point.1) + sext.x,
                      p.2 - (sext.y + croundQ w.point.2) + sext.y)
       else g p) := rfl

theorem stamp_support (w : WarpQ) (v : ℤ × ℤ)
    (hs : iradiusQ w ≤ v.1.natAbs ⊔ v.2.natAbs) : build_round_stamp w v = 0 := by
  rw [build_round_stamp_eq]
  by_cases hcond : v.1.natAbs ⊔ v.2.natAbs ≤ iradiusQ w ∧
      idistN v.1.natAbs v.2.natAbs < iradiusQ w * 10
  · exfalso
    have h10 : iradiusQ w * 10 ≤ idistN v.1.natAbs v.2.natAbs := by
      rw [← idistN_max_min v.1.natAbs v.2.natAbs]
      exact idistN_ge_ts hs
    obtain ⟨h1, h2⟩ := hcond
    omega
  · rw [if_neg hcond]

theorem stampField_neg (w : WarpQ) (hw : w.wtype = 1) (p : ℤ × ℤ) :
    stampField w (-p.1, -p.2) = - stampField w p := by
  simp only [stampField, hw, Int.natAbs_neg]
  push_cast
  ring

theorem stampField_shrink (w : WarpQ) (hw : w.wtype = 1) (p : ℤ × ℤ) :
    stampField (setWtypeQ w 2) p = - stampField w p := by
  have ha : absStrengthHalf (setWtypeQ w 2) = absStrengthHalf w := rfl
  have hi : iradiusQ (setWtypeQ w 2) = iradiusQ w := rfl
  have hc1 : (setWtypeQ w 2).control1 = w.control1 := rfl
  have hc2 : (setWtypeQ w 2).control2 = w.control2 := rfl
  have ht : (setWtypeQ w 2).wtype = 2 := rfl
  simp only [stampField, ha, hi, hc1, hc2, ht, hw]
  ring

theorem build_round_stamp_neg (w : WarpQ) (hw : w.wtype = 1) (p : ℤ × ℤ) :
    build_round_stamp w (-p.1, -p.2) = - build_round_stamp w p := by
  rw [build_round_stamp_eq, build_round_stamp_eq]
  simp only [Int.natAbs_neg]
  by_cases hc : p.1.natAbs ⊔ p.2.natAbs ≤ iradiusQ w ∧
      idistN p.1.natAbs p.2.natAbs < iradiusQ w * 10
  · rw [if_pos hc, if_pos hc]
    exact stampField_neg w hw p
  · rw [if_neg hc, if_neg hc]
    exact neg_zero.symm

theorem build_round_stamp_shrink (w : WarpQ) (hw : w.wtype = 1) (p : ℤ × ℤ) :
    build_round_stamp (setWtypeQ w 2) p = - build_round_stamp w p := by
  have hir : iradiusQ (setWtypeQ w 2) = iradiusQ w := rfl
  rw [build_round_stamp_eq, build_round_stamp_eq, hir]
  by_cases hc : p.1.natAbs ⊔ p.2.natAbs ≤ iradiusQ w ∧
      idistN p.1.natAbs p.2.natAbs < iradiusQ w * 10
  · rw [if_pos hc, if_pos hc]
    exact stampField_shrink w hw p
  · rw [if_neg hc, if_neg hc]
    exact neg_zero.symm

theorem inRect_interRect (a b : Rect) (p : ℤ × ℤ) :
    inRect (interRect a b) p ↔ inRect a p ∧ inRect b p := by
  rw [interRect]
  by_cases hov : rectOverlap a b = true
  · rw [if_pos hov]
    simp only [inRect]
    omega
  · rw [if_neg hov]
    simp only [rectOverlap, Bool.and_eq_true, decide_eq_true_eq] at hov
    simp only [inRect]
    constructor
    · intro h
      omega
    · intro h
      exact absurd (by omega) hov

theorem int_le_of_cast_le_half {a b : ℤ} (h : (a : ℚ) ≤ (b : ℚ) + 1/2) : a ≤ b := by
  have h1 : (a : ℚ) < (b : ℚ) + 1 := by linarith
  exact Int.lt_add_one_iff.mp (by exact_mod_cast h1)

theorem ctruncQ_bounds (q : ℚ) : q - 1 ≤ (ctruncQ q : ℚ) ∧ (ctruncQ q : ℚ) ≤ q + 1 := by
  rw [ctruncQ]
  by_cases h : 0 ≤ q
  · rw [if_pos h]
    constructor
    · linarith [Int.sub_one_lt_floor q]
    · linarith [Int.floor_le q]
  · rw [if_neg h]
    constructor
    · linarith [Int.le_ceil q]
    · linarith [Int.ceil_lt_add_one q]

theorem croundQ_bounds (q : ℚ) :
    q - 1/2 ≤ (croundQ q : ℚ) ∧ (croundQ q : ℚ) ≤ q + 1/2 := by
  rw [croundQ]
  by_cases h : 0 ≤ q
  · rw [if_pos h]
    constructor
    · linarith [Int.sub_one_lt_floor (q + 1/2)]
    · linarith [Int.floor_le (q + 1/2)]
  · rw [if_neg h]
    constructor
    · linarith [Int.le_ceil (q - 1/2)]
    · linarith [Int.ceil_lt_add_one (q - 1/2)]

theorem extent_center_diff (px : ℚ) (r : ℕ) :
    croundQ px - (r : ℤ) - 1 ≤ ctruncQ (px - (r : ℚ)) ∧
    ctruncQ (px - (r : ℚ)) ≤ croundQ px - (r : ℤ) + 1 := by
  obtain ⟨t1, t2⟩ := ctruncQ_bounds (px - (r : ℚ))
  obtain ⟨r1, r2⟩ := croundQ_bounds px
  constructor
  · apply int_le_of_cast_le_half
    push_cast
    linarith
  · apply int_le_of_cast_le_half
    push_cast
    linarith

/-- C8: for a radial-grow warp the round stamp is point-symmetric
(`stamp (-p) = - stamp p`), the radial-shrink stamp is its negation, and in
the accumulated single-warp distortion map the values at `center + v` and
`center - v` (center = the rounded anchor point) are negatives of each
other. -/
theorem radial_stamp_symmetry (w : WarpQ) (roi : Rect) (hw : w.wtype = 1)
    (hr : 0 < iradiusQ w)
    (hov : rectOverlap roi
        ⟨ctruncQ (w.point.1 - (iradiusQ w : ℚ)), ctruncQ (w.point.2 - (iradiusQ w : ℚ)),
         2 * (iradiusQ w : ℤ) + 1, 2 * (iradiusQ w : ℤ) + 1⟩ = true) :
    (∀ p : ℤ × ℤ, build_round_stamp w (-p.1, -p.2) = - build_round_stamp w p) ∧
    (∀ p : ℤ × ℤ, build_round_stamp (setWtypeQ w 2) p = - build_round_stamp w p) ∧
    (∀ v : ℤ × ℤ, (build_global_distortion_map roi [w]).elim True fun em =>
        em.2 (croundQ w.point.1 + v.1, croundQ w.point.2 + v.2) =
          - em.2 (croundQ w.point.1 - v.1, croundQ w.point.2 - v.2)) := by
  refine ⟨fun p => build_round_stamp_neg w hw p,
          fun p => build_round_stamp_shrink w hw p, ?_⟩
  intro v
  set sR : Rect := ⟨ctruncQ (w.point.1 - (iradiusQ w : ℚ)),
      ctruncQ (w.point.2 - (iradiusQ w : ℚ)),
      2 * (iradiusQ w : ℤ) + 1, 2 * (iradiusQ w : ℤ) + 1⟩ with hsR
  set sE : Rect := ⟨-(iradiusQ w : ℤ), -(iradiusQ w : ℤ),
      2 * (iradiusQ w : ℤ) + 1, 2 * (iradiusQ w : ℤ) + 1⟩ with hsE
  set M := add_to_global_distortion_map (fun _ => (0 : ℂ)) sR w (build_round_stamp w) sE
    with hM
  have hcrse : compute_round_stamp_extent w = some sR := by
    simp only [compute_round_stamp_extent]
    rw [if_pos hr, hsR]
  have hse : stampExtents [w] = some [sR] := by
    have h0 : stampExtents [w] =
        match compute_round_stamp_extent w with
        | none => none
        | some r0 =>
          match stampExtents ([] : List WarpQ) with
          | none => none
          | some rs => some (r0 :: rs) := rfl
    rw [h0, hcrse]
    rfl
  have hext : _get_map_extent roi [w] = some sR := by
    have h0 : _get_map_extent roi [w] =
        match stampExtents [w] with
        | none => none
        | some rs => some (regionExtents (rs.filter fun r0 => rectOverlap roi r0)) := rfl
    have hov2 : rectOverlap roi sR = true := by rw [hsR]; exact hov
    have h2 : regionExtents ([sR].filter fun r0 => rectOverlap roi r0) = sR := by
      simp [List.filter_cons, List.filter_nil, hov2, regionExtents]
    rw [h0, hse]
    simp only [h2]
  have hch : build_round_stamp_checked w = some (sE, build_round_stamp w) := by
    simp only [build_round_stamp_checked]
    rw [if_pos hr, hsE]
  have happly : build_global_distortion_map roi [w] = some (sR, M) := by
    have h0 : build_global_distortion_map roi [w] =
        match _get_map_extent roi [w] with
        | none => none
        | some ext =>
          match applyStamps ext [w] fun _ => (0 : ℂ) with
          | none => none
          | some m => some (ext, m) := rfl
    have h1 : (applyStamps sR [w] fun _ => (0 : ℂ)) =
        match build_round_stamp_checked w with
        | none => none
        | some (sext, st) =>
          applyStamps sR []
            (add_to_global_distortion_map (fun _ => (0 : ℂ)) sR w st sext) := rfl
    rw [h0, hext]
    show (match applyStamps sR [w] fun _ => (0 : ℂ) with
          | none => none
          | some m => some (sR, m)) = some (sR, M)
    rw [h1, hch]
    rfl
  have hmap : ∀ q : ℤ × ℤ,
      M q = if inRect (interRect ⟨croundQ w.point.1 - (iradiusQ w : ℤ),
          croundQ w.point.2 - (iradiusQ w : ℤ),
          2 * (iradiusQ w : ℤ) + 1, 2 * (iradiusQ w : ℤ) + 1⟩ sR) q
        then - build_round_stamp w (q.1 - croundQ w.point.1, q.2 - croundQ w.point.2)
        else 0 := by
    intro q
    rw [hM, add_map_apply]
    have hmm : (⟨sE.x + croundQ w.point.1, sE.y + croundQ w.point.2,
        sE.width, sE.height⟩ : Rect) =
        ⟨croundQ w.point.1 - (iradiusQ w : ℤ), croundQ w.point.2 - (iradiusQ w : ℤ),
         2 * (iradiusQ w : ℤ) + 1, 2 * (iradiusQ w : ℤ) + 1⟩ := by
      rw [hsE]
      simp only [Rect.mk.injEq, and_true]
      omega
    have harg : (q.1 - (sE.x + croundQ w.point.1) + sE.x,
        q.2 - (sE.y + croundQ w.point.2) + sE.y) =
        (q.1 - croundQ w.point.1, q.2 - croundQ w.point.2) := by
      rw [hsE]
      simp only [Prod.mk.injEq]
      constructor <;> ring
    rw [hmm, harg]
    by_cases hq : inRect (interRect ⟨croundQ w.point.1 - (iradiusQ w : ℤ),
        croundQ w.point.2 - (iradiusQ w : ℤ),
        2 * (iradiusQ w : ℤ) + 1, 2 * (iradiusQ w : ℤ) + 1⟩ sR) q
    · rw [if_pos hq, if_pos hq]
      simp only [zero_sub]
    · rw [if_neg hq, if_neg hq]
  rw [happly]
  show M (croundQ w.point.1 + v.1, croundQ w.point.2 + v.2) =
      - M (croundQ w.point.1 - v.1, croundQ w.point.2 - v.2)
  rw [hmap, hmap]
  by_cases hvr : v.1.natAbs ⊔ v.2.natAbs < iradiusQ w
  · have hv1 : v.1.natAbs < iradiusQ w := lt_of_le_of_lt le_sup_left hvr
    have hv2 : v.2.natAbs < iradiusQ w := lt_of_le_of_lt le_sup_right hvr
    obtain ⟨b1, b2⟩ := extent_center_diff w.point.1 (iradiusQ w)
    obtain ⟨b3, b4⟩ := extent_center_diff w.point.2 (iradiusQ w)
    have hin1 : inRect (interRect ⟨croundQ w.point.1 - (iradiusQ w : ℤ),
        croundQ w.point.2 - (iradiusQ w : ℤ),
        2 * (iradiusQ w : ℤ) + 1, 2 * (iradiusQ w : ℤ) + 1⟩ sR)
        (croundQ w.point.1 + v.1, croundQ w.point.2 + v.2) := by
      rw [inRect_interRect]
      constructor
      · simp only [inRect]
        omega
      · rw [hsR]
        simp only [inRect]
        omega
    have hin2 : inRect (interRect ⟨croundQ w.point.1 - (iradiusQ w : ℤ),
        croundQ w.point.2 - (iradiusQ w : ℤ),
        2 * (iradiusQ w : ℤ) + 1, 2 * (iradiusQ w : ℤ) + 1⟩ sR)
        (croundQ w.point.1 - v.1, croundQ w.point.2 - v.2) := by
      rw [inRect_interRect]
      constructor
      · simp only [inRect]
        omega
      · rw [hsR]
        simp only [inRect]
        omega
    rw [if_pos hin1, if_pos hin2]
    have e1 : ((croundQ w.point.1 + v.1, croundQ w.point.2 + v.2).1 - croundQ w.point.1,
        (croundQ w.point.1 + v.1, croundQ w.point.2 + v.2).2 - croundQ w.point.2) =
        (v.1, v.2) := by
      simp only [Prod.mk.injEq]
      omega
    have e2 : ((croundQ w.point.1 - v.1, croundQ w.point.2 - v.2).1 - croundQ w.point.1,
        (croundQ w.point.1 - v.1, croundQ w.point.2 - v.2).2 - croundQ w.point.2) =
        (-v.1, -v.2) := by
      simp only [Prod.mk.injEq]
      omega
    rw [e1, e2, Prod.mk.eta, build_round_stamp_neg w hw v, neg_neg]
  · push_neg at hvr
    have e1 : ((croundQ w.point.1 + v.1, croundQ w.point.2 + v.2).1 - croundQ w.point.1,
        (croundQ w.point.1 + v.1, croundQ w.point.2 + v.2).2 - croundQ w.point.2) =
        (v.1, v.2) := by
      simp only [Prod.mk.injEq]
      omega
    have e2 : ((croundQ w.point.1 - v.1, croundQ w.point.2 - v.2).1 - croundQ w.point.1,
        (croundQ w.point.1 - v.1, croundQ w.point.2 - v.2).2 - croundQ w.point.2) =
        (-v.1, -v.2) := by
      simp only [Prod.mk.injEq]
      omega
    have hz1 : build_round_stamp w ((v.1 : ℤ), (v.2 : ℤ)) = 0 :=
      stamp_support w (v.1, v.2) hvr
    have hz2 : build_round_stamp w (-v.1, -v.2) = 0 := by
      refine stamp_support w (-v.1, -v.2) ?_
      simpa [Int.natAbs_neg] using hvr
    rw [e1, e2]
    split_ifs <;> simp [hz1, hz2]

/-- Witness for C8 at the warp `point (5,5), radius (8,5)` (iradius 3) and
region of interest `(0,0)-(100,100)`; the point symmetry is instantiated at
the pixel offset `(1, 2)`. -/
theorem radial_stamp_symmetry_witness :
    (⟨(5, 5), (6, 5), (8, 5), 1/2, 3/4, 1⟩ : WarpQ).wtype = 1 ∧
    0 < iradiusQ ⟨(5, 5), (6, 5), (8, 5), 1/2, 3/4, 1⟩ ∧
    rectOverlap ⟨0, 0, 100, 100⟩
      ⟨ctruncQ ((5 : ℚ) - (iradiusQ ⟨(5, 5), (6, 5), (8, 5), 1/2, 3/4, 1⟩ : ℚ)),
       ctruncQ ((5 : ℚ) - (iradiusQ ⟨(5, 5), (6, 5), (8, 5), 1/2, 3/4, 1⟩ : ℚ)),
       2 * (iradiusQ ⟨(5, 5), (6, 5), (8, 5), 1/2, 3/4, 1⟩ : ℤ) + 1,
       2 * (iradiusQ ⟨(5, 5), (6, 5), (8, 5), 1/2, 3/4, 1⟩ : ℤ) + 1⟩ = true ∧
    build_round_stamp ⟨(5, 5), (6, 5), (8, 5), 1/2, 3/4, 1⟩ (-(1 : ℤ), -(2 : ℤ)) =
      - build_round_stamp ⟨(5, 5), (6, 5), (8, 5), 1/2, 3/4, 1⟩ ((1 : ℤ), (2 : ℤ)) := by
  have hr3 : iradiusQ ⟨(5, 5), (6, 5), (8, 5), 1/2, 3/4, 1⟩ = 3 := by
    norm_num [iradiusQ, normSqQ, roundSqrtQ, Prod.fst_sub, Prod.snd_sub]
    decide
  have h2 : 0 < iradiusQ ⟨(5, 5), (6, 5), (8, 5), 1/2, 3/4, 1⟩ := by
    rw [hr3]; norm_num
  have h3 : rectOverlap ⟨0, 0, 100, 100⟩
      ⟨ctruncQ ((5 : ℚ) - (iradiusQ ⟨(5, 5), (6, 5), (8, 5), 1/2, 3/4, 1⟩ : ℚ)),
       ctruncQ ((5 : ℚ) - (iradiusQ ⟨(5, 5), (6, 5), (8, 5), 1/2, 3/4, 1⟩ : ℚ)),
       2 * (iradiusQ ⟨(5, 5), (6, 5), (8, 5), 1/2, 3/4, 1⟩ : ℤ) + 1,
       2 * (iradiusQ ⟨(5, 5), (6, 5), (8, 5), 1/2, 3/4, 1⟩ : ℤ) + 1⟩ = true := by
    rw [hr3]
    norm_num [ctruncQ, rectOverlap]
  exact ⟨rfl, h2, h3,
    (radial_stamp_symmetry ⟨(5, 5), (6, 5), (8, 5), 1/2, 3/4, 1⟩ ⟨0, 0, 100, 100⟩
        rfl h2 h3).1 ((1 : ℤ), (2 : ℤ))⟩

/-! ## Identity copy-through (claim C6) -/

theorem build_some_ext {roi : Rect} {warps : List WarpQ} {ext : Rect}
    {m : (ℤ × ℤ) → ℂ}
    (hb : build_global_distortion_map roi warps = some (ext, m)) :
    _get_map_extent roi warps = some ext := by
  have hbdef : build_global_distortion_map roi warps =
      match _get_map_extent roi warps with
      | none => none
      | some e =>
        match applyStamps e warps fun _ => (0 : ℂ) with
        | none => none
        | some mm => some (e, mm) := rfl
  rw [hbdef] at hb
  cases hge : _get_map_extent roi warps with
  | none =>
    rw [hge] at hb
    simp at hb
  | some e =>
    rw [hge] at hb
    have hb2 : (match applyStamps e warps fun _ => (0 : ℂ) with
        | none => none
        | some mm => some (e, mm)) = some (ext, m) := hb
    cases hap : applyStamps e warps fun _ => (0 : ℂ) with
    | none =>
      rw [hap] at hb2
      simp at hb2
    | some mm =>
      rw [hap] at hb2
      simp only [Option.some.injEq, Prod.mk.injEq] at hb2
      rw [hb2.1]

/-- C6: destination pixels outside the map extent, or with a zero map entry,
keep the copied-through input value; a degenerate (zero-size) extent keeps
the input everywhere; and if no stamp extent survives the `roi_out` overlap
filter the built extent is the zero rectangle (so the whole output is the
input). -/
theorem identity_copy_through {V : Type} (sample : ((ℤ × ℤ) → V) → ℝ → ℝ → V)
    (inp : (ℤ × ℤ) → V) (roi_in roi_out : Rect) (warps : List WarpQ)
    (ext : Rect) (m : (ℤ × ℤ) → ℂ)
    (hb : build_global_distortion_map roi_out warps = some (ext, m)) :
    (∀ p : ℤ × ℤ, ¬ inRect ext p ∨ m p = 0 →
        process sample inp roi_in roi_out warps p = inp p) ∧
    (ext.width = 0 ∨ ext.height = 0 →
        ∀ p : ℤ × ℤ, process sample inp roi_in roi_out warps p = inp p) ∧
    (∀ rs, stampExtents warps = some rs →
        (rs.filter fun r => rectOverlap roi_out r) = [] →
        ext = ⟨0, 0, 0, 0⟩) := by
  have h0 : process sample inp roi_in roi_out warps =
      match build_global_distortion_map roi_out warps with
      | none => fun p => inp p
      | some (e, mm) =>
        if e.width = 0 ∨ e.height = 0 then fun p => inp p
        else apply_global_distortion_map sample inp (fun p => inp p) roi_in roi_out mm e :=
    rfl
  refine ⟨?_, ?_, ?_⟩
  · intro p hp
    rw [h0, hb]
    show (if ext.width = 0 ∨ ext.height = 0 then fun p => inp p
        else apply_global_distortion_map sample inp (fun p => inp p) roi_in roi_out m ext) p
      = inp p
    by_cases he : ext.width = 0 ∨ ext.height = 0
    · rw [if_pos he]
    · rw [if_neg he]
      simp only [apply_global_distortion_map]
      rw [if_neg]
      rintro ⟨h1, _, h3⟩
      rcases hp with hout | hzero
      · exact hout h1
      · exact h3 hzero
  · intro he p
    rw [h0, hb]
    show (if ext.width = 0 ∨ ext.height = 0 then fun p => inp p
        else apply_global_distortion_map sample inp (fun p => inp p) roi_in roi_out m ext) p
      = inp p
    rw [if_pos he]
  · intro rs hrs hfil
    have hge : _get_map_extent roi_out warps =
        some (regionExtents (rs.filter fun r => rectOverlap roi_out r)) := by
      have hgdef : _get_map_extent roi_out warps =
          match stampExtents warps with
          | none => none
          | some rs0 => some (regionExtents (rs0.filter fun r => rectOverlap roi_out r)) :=
        rfl
      rw [hgdef, hrs]
    rw [hfil] at hge
    have hxe := build_some_ext hb
    rw [hge] at hxe
    exact (Option.some.injEq _ _ ▸ hxe :).symm

/-- Witness for C6 with an empty warp list over a 4×4 region (the built map
has the zero extent and the zero map). -/
theorem identity_copy_through_witness :
    build_global_distortion_map ⟨0, 0, 4, 4⟩ [] =
      some (⟨0, 0, 0, 0⟩, fun _ => (0 : ℂ)) ∧
    ((∀ p : ℤ × ℤ, ¬ inRect ⟨0, 0, 0, 0⟩ p ∨ (fun _ => (0 : ℂ)) p = 0 →
        process (fun _ _ _ => (0 : ℚ)) (fun _ => 1) ⟨0, 0, 4, 4⟩ ⟨0, 0, 4, 4⟩ [] p =
          (fun _ => (1 : ℚ)) p) ∧
      ((⟨0, 0, 0, 0⟩ : Rect).width = 0 ∨ (⟨0, 0, 0, 0⟩ : Rect).height = 0 →
        ∀ p : ℤ × ℤ, process (fun _ _ _ => (0 : ℚ)) (fun _ => 1)
          ⟨0, 0, 4, 4⟩ ⟨0, 0, 4, 4⟩ [] p = (fun _ => (1 : ℚ)) p) ∧
      (∀ rs, stampExtents ([] : List WarpQ) = some rs →
        (rs.filter fun r => rectOverlap ⟨0, 0, 4, 4⟩ r) = [] →
        (⟨0, 0, 0, 0⟩ : Rect) = ⟨0, 0, 0, 0⟩)) :=
  ⟨rfl, identity_copy_through (fun _ _ _ => (0 : ℚ)) (fun _ => 1)
    ⟨0, 0, 4, 4⟩ ⟨0, 0, 4, 4⟩ [] ⟨0, 0, 0, 0⟩ (fun _ => (0 : ℂ)) rfl⟩

/-! ## Warp type comes from the segment start node (claim C10) -/

theorem mix_warps_set (w1 w2 : WarpC) (t : ℕ) (pt : ℂ) (s : ℝ) :
    mix_warps w1 (setWtypeC w2 t) pt s = mix_warps w1 w2 pt s := rfl

theorem interpolate_line_types (w1 w2 : WarpC) (p1 p2 : ℂ) :
    ∀ fuel arc l, interpolate_line w1 w2 p1 p2 fuel arc = some l →
      ∀ w ∈ l, w.wtype = w1.wtype := by
  intro fuel
  induction fuel with
  | zero =>
    intro arc l hl
    rw [interpolate_line] at hl
    split_ifs at hl
    cases hl
    simp
  | succ f ih =>
    intro arc l hl
    rw [interpolate_line] at hl
    split_ifs at hl with harc
    · dsimp only [] at hl
      split at hl
      · cases hl
      · rename_i l2 hrec
        injection hl with h
        subst h
        intro w hw
        rcases List.mem_cons.mp hw with rfl | hw2
        · rfl
        · exact ih _ _ hrec w hw2
    · cases hl
      simp

theorem interpolate_curve_types (w1 w2 : WarpC) (pts : List ℂ) :
    ∀ fuel arc ck l, interpolate_curve w1 w2 pts fuel arc ck = some l →
      ∀ w ∈ l, w.wtype = w1.wtype := by
  intro fuel
  induction fuel with
  | zero =>
    intro arc ck l hl
    rw [interpolate_curve] at hl
    split_ifs at hl
    cases hl
    simp
  | succ f ih =>
    intro arc ck l hl
    rw [interpolate_curve] at hl
    split_ifs at hl with harc
    · dsimp only [] at hl
      split at hl
      · cases hl
      · rename_i l2 hrec
        injection hl with h
        subst h
        intro w hw
        rcases List.mem_cons.mp hw with rfl | hw2
        · rfl
        · exact ih _ _ _ hrec w hw2
    · cases hl
      simp

theorem interpolate_line_set (w1 w2 : WarpC) (t : ℕ) (p1 p2 : ℂ) :
    ∀ fuel arc, interpolate_line w1 (setWtypeC w2 t) p1 p2 fuel arc =
      interpolate_line w1 w2 p1 p2 fuel arc := by
  intro fuel
  induction fuel with
  | zero => intro arc; rfl
  | succ f ih =>
    intro arc
    rw [interpolate_line, interpolate_line]
    simp only [mix_warps_set]
    rw [ih]

theorem interpolate_curve_set (w1 w2 : WarpC) (t : ℕ) (pts : List ℂ) :
    ∀ fuel arc ck, interpolate_curve w1 (setWtypeC w2 t) pts fuel arc ck =
      interpolate_curve w1 w2 pts fuel arc ck := by
  intro fuel
  induction fuel with
  | zero => intro arc ck; rfl
  | succ f ih =>
    intro arc ck
    rw [interpolate_curve, interpolate_curve]
    simp only [mix_warps_set]
    rw [ih]

/-- C10: in the LineTo/CurveTo sampling loops of `interpolate_paths` (run
with `w1` = the segment start node's materialised warp and `w2` = the end
node's), every emitted sampled warp carries `w1`'s warp type, and replacing
the end warp's type leaves the emitted samples unchanged — the end node's
warp type never influences any sample. -/
theorem warp_type_from_start (w1 w2 : WarpC) (t : ℕ) (p1 p2 : ℂ)
    (pts : List ℂ) (fuel : ℕ) (arc : ℝ) (ck : ℕ × ℝ) :
    (∀ l, interpolate_line w1 w2 p1 p2 fuel arc = some l →
        ∀ w ∈ l, w.wtype = w1.wtype) ∧
    (∀ l, interpolate_curve w1 w2 pts fuel arc ck = some l →
        ∀ w ∈ l, w.wtype = w1.wtype) ∧
    interpolate_line w1 (setWtypeC w2 t) p1 p2 fuel arc =
      interpolate_line w1 w2 p1 p2 fuel arc ∧
    interpolate_curve w1 (setWtypeC w2 t) pts fuel arc ck =
      interpolate_curve w1 w2 pts fuel arc ck :=
  ⟨fun l hl => interpolate_line_types w1 w2 p1 p2 fuel arc l hl,
   fun l hl => interpolate_curve_types w1 w2 pts fuel arc ck l hl,
   interpolate_line_set w1 w2 t p1 p2 fuel arc,
   interpolate_curve_set w1 w2 t pts fuel arc ck⟩

/-- Witness for C10: concrete grow/shrink end warps on a degenerate segment,
with the end warp's type rewritten to an arbitrary value. -/
theorem warp_type_from_start_witness :
    interpolate_line ⟨0, 1, 2, 0, 0, 1⟩ (setWtypeC ⟨0, 1, 2, 0, 0, 2⟩ 5) 0 0 0 0 =
      interpolate_line ⟨0, 1, 2, 0, 0, 1⟩ ⟨0, 1, 2, 0, 0, 2⟩ 0 0 0 0 :=
  (warp_type_from_start ⟨0, 1, 2, 0, 0, 1⟩ ⟨0, 1, 2, 0, 0, 2⟩ 5 0 0 [] 0 0 (1, 0)).2.2.1

/-! ## Interpolator termination (claim C4) -/

theorem mixR_min_le (a b t : ℝ) (h0 : 0 ≤ t) (h1 : t ≤ 1) :
    min a b ≤ mixR a b t := by
  rw [mixR]
  rcases le_total a b with h | h
  · rw [min_eq_left h]
    nlinarith
  · rw [min_eq_right h]
    nlinarith

theorem line_step_eq (w1 w2 : WarpC) (pt : ℂ) (t : ℝ) :
    (relocateStrength (mix_warps w1 w2 pt t)).radius -
      (relocateStrength (mix_warps w1 w2 pt t)).point =
      ((mixR (Complex.abs (w1.radius - w1.point))
          (Complex.abs (w2.radius - w2.point)) t : ℝ) : ℂ) := by
  simp [relocateStrength, mix_warps]

theorem interpolate_line_stuck (w1 w2 : WarpC) (p1 p2 : ℂ)
    (h1 : w1.radius = w1.point) (h2 : w2.radius = w2.point) :
    ∀ fuel arc, arc < Complex.abs (p1 - p2) →
      interpolate_line w1 w2 p1 p2 fuel arc = none := by
  intro fuel
  induction fuel with
  | zero =>
    intro arc harc
    rw [interpolate_line, if_pos harc]
  | succ f ih =>
    intro arc harc
    have hstep : ∀ t pt, (relocateStrength (mix_warps w1 w2 pt t)).radius -
        (relocateStrength (mix_warps w1 w2 pt t)).point = 0 := by
      intro t pt
      rw [line_step_eq, h1, h2]
      simp [mixR]
    have hunf : interpolate_line w1 w2 p1 p2 (f + 1) arc =
        (if arc < Complex.abs (p1 - p2) then
          match interpolate_line w1 w2 p1 p2 f (arc + Complex.abs
              ((relocateStrength (mix_warps w1 w2 (cmixC p1 p2 (arc / Complex.abs (p1 - p2)))
                  (arc / Complex.abs (p1 - p2)))).radius -
               (relocateStrength (mix_warps w1 w2 (cmixC p1 p2 (arc / Complex.abs (p1 - p2)))
                  (arc / Complex.abs (p1 - p2)))).point) * (1 / 10)) with
          | none => none
          | some l => some (relocateStrength (mix_warps w1 w2
              (cmixC p1 p2 (arc / Complex.abs (p1 - p2)))
              (arc / Complex.abs (p1 - p2))) :: l)
        else some []) := rfl
    rw [hunf, if_pos harc, hstep]
    rw [show arc + Complex.abs (0 : ℂ) * (1 / 10) = arc by simp]
    rw [ih arc harc]

/-- C4 (counterexample to the claim as stated): on the two-node path
`MoveTo; LineTo` whose node warps all have `radius = point`, the per-step
advance is `0.1 * 0 = 0` and the LineTo sampling loop never terminates: no
fuel makes the interpolator finish. -/
theorem interpolator_nontermination_cex :
    ¬ InterpolatesFinitely
      [Node.moveTo ⟨0, 0, 0⟩ ⟨(0, 0), (1, 0), (0, 0), 1/2, 3/4, 0⟩,
       Node.lineTo ⟨0, 0, 0⟩ ⟨(3, 0), (4, 0), (3, 0), 1/2, 3/4, 0⟩] := by
  rintro ⟨fuel, l, hl⟩
  have hz : castC ((0 : ℚ), (0 : ℚ)) - castC ((3 : ℚ), (0 : ℚ)) ≠ 0 := by
    intro hcon
    have hre := congrArg Complex.re hcon
    norm_num [castC] at hre
  have harc : (0 : ℝ) < Complex.abs (castC ((0 : ℚ), (0 : ℚ)) - castC ((3 : ℚ), (0 : ℚ))) :=
    AbsoluteValue.pos _ hz
  have hline := interpolate_line_stuck
    (toC ⟨(0, 0), (1, 0), (0, 0), 1/2, 3/4, 0⟩)
    (toC ⟨(3, 0), (4, 0), (3, 0), 1/2, 3/4, 0⟩)
    (castC ((0 : ℚ), (0 : ℚ))) (castC ((3 : ℚ), (0 : ℚ))) rfl rfl fuel 0 harc
  have hunf : interpolate_path
      [Node.moveTo ⟨0, 0, 0⟩ ⟨(0, 0), (1, 0), (0, 0), 1/2, 3/4, 0⟩,
       Node.lineTo ⟨0, 0, 0⟩ ⟨(3, 0), (4, 0), (3, 0), 1/2, 3/4, 0⟩] none fuel =
      (match interpolate_line
          (toC ⟨(0, 0), (1, 0), (0, 0), 1/2, 3/4, 0⟩)
          (toC ⟨(3, 0), (4, 0), (3, 0), 1/2, 3/4, 0⟩)
          (castC ((0 : ℚ), (0 : ℚ))) (castC ((3 : ℚ), (0 : ℚ))) fuel 0 with
        | none => none
        | some seg =>
          (interpolate_path []
            (some (Node.lineTo ⟨0, 0, 0⟩ ⟨(3, 0), (4, 0), (3, 0), 1/2, 3/4, 0⟩)) fuel).map
            fun l2 => seg ++ l2) := rfl
  rw [hunf, hline] at hl
  simp at hl

theorem line_term (w1 w2 : WarpC) (p1 p2 : ℂ)
    (hr1 : 0 < Complex.abs (w1.radius - w1.point))
    (hr2 : 0 < Complex.abs (w2.radius - w2.point)) :
    ∀ (n : ℕ) (arc : ℝ), 0 ≤ arc →
      Complex.abs (p1 - p2) ≤ arc + (n : ℝ) * (min (Complex.abs (w1.radius - w1.point))
        (Complex.abs (w2.radius - w2.point)) / 10) →
      ∃ l, interpolate_line w1 w2 p1 p2 n arc = some l := by
  intro n
  induction n with
  | zero =>
    intro arc h0 hb
    have hunf : interpolate_line w1 w2 p1 p2 0 arc =
        (if arc < Complex.abs (p1 - p2) then none else some []) := rfl
    rw [hunf, if_neg (not_lt.mpr (by simpa using hb))]
    exact ⟨[], rfl⟩
  | succ f ih =>
    intro arc h0 hb
    have hunf : interpolate_line w1 w2 p1 p2 (f + 1) arc =
        (if arc < Complex.abs (p1 - p2) then
          match interpolate_line w1 w2 p1 p2 f (arc + Complex.abs
              ((relocateStrength (mix_warps w1 w2 (cmixC p1 p2 (arc / Complex.abs (p1 - p2)))
                  (arc / Complex.abs (p1 - p2)))).radius -
               (relocateStrength (mix_warps w1 w2 (cmixC p1 p2 (arc / Complex.abs (p1 - p2)))
                  (arc / Complex.abs (p1 - p2)))).point) * (1 / 10)) with
          | none => none
          | some l => some (relocateStrength (mix_warps w1 w2
              (cmixC p1 p2 (arc / Complex.abs (p1 - p2)))
              (arc / Complex.abs (p1 - p2))) :: l)
        else some []) := rfl
    by_cases harc : arc < Complex.abs (p1 - p2)
    · rw [hunf, if_pos harc]
      set t := arc / Complex.abs (p1 - p2) with ht
      have htot : 0 < Complex.abs (p1 - p2) := lt_of_le_of_lt h0 harc
      have ht0 : 0 ≤ t := by
        rw [ht]
        exact div_nonneg h0 (AbsoluteValue.nonneg _ _)
      have ht1 : t ≤ 1 := by
        rw [ht, div_le_one htot]
        exact le_of_lt harc
      have hmix := mixR_min_le (Complex.abs (w1.radius - w1.point))
        (Complex.abs (w2.radius - w2.point)) t ht0 ht1
      have hstep : Complex.abs ((relocateStrength (mix_warps w1 w2 (cmixC p1 p2 t) t)).radius -
          (relocateStrength (mix_warps w1 w2 (cmixC p1 p2 t) t)).point) =
          mixR (Complex.abs (w1.radius - w1.point)) (Complex.abs (w2.radius - w2.point)) t := by
        rw [line_step_eq, Complex.abs_ofReal]
        exact abs_of_nonneg (le_trans (le_of_lt (lt_min hr1 hr2)) hmix)
      obtain ⟨l2, hl2⟩ := ih
        (arc + Complex.abs ((relocateStrength (mix_warps w1 w2 (cmixC p1 p2 t) t)).radius -
          (relocateStrength (mix_warps w1 w2 (cmixC p1 p2 t) t)).point) * (1 / 10))
        (add_nonneg h0 (mul_nonneg (AbsoluteValue.nonneg _ _) (by norm_num)))
        (by
          rw [hstep]
          push_cast at hb ⊢
          linarith)
      refine ⟨relocateStrength (mix_warps w1 w2 (cmixC p1 p2 t) t) :: l2, ?_⟩
      rw [hl2]
    · rw [hunf, if_neg harc]
      exact ⟨[], rfl⟩

theorem curve_term (w1 w2 : WarpC) (pts : List ℂ)
    (hr1 : 0 < Complex.abs (w1.radius - w1.point))
    (hr2 : 0 < Complex.abs (w2.radius - w2.point)) :
    ∀ (n : ℕ) (arc : ℝ) (ck : ℕ × ℝ), 0 ≤ arc →
      get_arc_length pts ≤ arc + (n : ℝ) * (min (Complex.abs (w1.radius - w1.point))
        (Complex.abs (w2.radius - w2.point)) / 10) →
      ∃ l, interpolate_curve w1 w2 pts n arc ck = some l := by
  intro n
  induction n with
  | zero =>
    intro arc ck h0 hb
    have hunf : interpolate_curve w1 w2 pts 0 arc ck =
        (if arc < get_arc_length pts then none else some []) := rfl
    rw [hunf, if_neg (not_lt.mpr (by simpa using hb))]
    exact ⟨[], rfl⟩
  | succ f ih =>
    intro arc ck h0 hb
    have hunf : interpolate_curve w1 w2 pts (f + 1) arc ck =
        (if arc < get_arc_length pts then
          match interpolate_curve w1 w2 pts f (arc + Complex.abs
              ((relocateStrength (mix_warps w1 w2 (point_at_arc_length pts arc ck).1
                  (arc / get_arc_length pts))).radius -
               (relocateStrength (mix_warps w1 w2 (point_at_arc_length pts arc ck).1
                  (arc / get_arc_length pts))).point) * (1 / 10))
              (point_at_arc_length pts arc ck).2 with
          | none => none
          | some l => some (relocateStrength (mix_warps w1 w2
              (point_at_arc_length pts arc ck).1 (arc / get_arc_length pts)) :: l)
        else some []) := rfl
    by_cases harc : arc < get_arc_length pts
    · rw [hunf, if_pos harc]
      set t := arc / get_arc_length pts with ht
      have htot : 0 < get_arc_length pts := lt_of_le_of_lt h0 harc
      have ht0 : 0 ≤ t := by
        rw [ht]
        exact div_nonneg h0 (le_of_lt htot)
      have ht1 : t ≤ 1 := by
        rw [ht, div_le_one htot]
        exact le_of_lt harc
      have hmix := mixR_min_le (Complex.abs (w1.radius - w1.point))
        (Complex.abs (w2.radius - w2.point)) t ht0 ht1
      have hstep : Complex.abs ((relocateStrength (mix_warps w1 w2
          (point_at_arc_length pts arc ck).1 t)).radius -
          (relocateStrength (mix_warps w1 w2 (point_at_arc_length pts arc ck).1 t)).point) =
          mixR (Complex.abs (w1.radius - w1.point)) (Complex.abs (w2.radius - w2.point)) t := by
        rw [line_step_eq, Complex.abs_ofReal]
        exact abs_of_nonneg (le_trans (le_of_lt (lt_min hr1 hr2)) hmix)
      obtain ⟨l2, hl2⟩ := ih
        (arc + Complex.abs ((relocateStrength (mix_warps w1 w2
            (point_at_arc_length pts arc ck).1 t)).radius -
          (relocateStrength (mix_warps w1 w2 (point_at_arc_length pts arc ck).1 t)).point)
          * (1 / 10))
        (point_at_arc_length pts arc ck).2
        (add_nonneg h0 (mul_nonneg (AbsoluteValue.nonneg _ _) (by norm_num)))
        (by
          rw [hstep]
          push_cast at hb ⊢
          linarith)
      refine ⟨relocateStrength (mix_warps w1 w2 (point_at_arc_length pts arc ck).1 t) :: l2, ?_⟩
      rw [hl2]
    · rw [hunf, if_neg harc]
      exact ⟨[], rfl⟩

theorem exists_fuel_bound (T d : ℝ) (hd : 0 < d) :
    ∃ N : ℕ, ∀ n : ℕ, N ≤ n → T ≤ n * d := by
  obtain ⟨N, hN⟩ := exists_nat_ge (T / d)
  refine ⟨N, fun n hn => ?_⟩
  have h1 : T / d ≤ (n : ℝ) := le_trans hN (by exact_mod_cast hn)
  have h2 : T / d * d ≤ (n : ℝ) * d := mul_le_mul_of_nonneg_right h1 (le_of_lt hd)
  rw [div_mul_cancel₀ T (ne_of_gt hd)] at h2
  exact h2

theorem castC_sub (a b : CQ) : castC (a - b) = castC a - castC b := by
  simp only [castC, Complex.ext_iff, Complex.sub_re, Complex.sub_im, Prod.fst_sub, Prod.snd_sub]
  constructor <;> push_cast <;> ring

theorem abs_castC_pos {u : CQ} (h : 0 < normSqQ u) : 0 < Complex.abs (castC u) := by
  refine AbsoluteValue.pos _ ?_
  intro hz
  have h1 := congrArg Complex.re hz
  have h2 := congrArg Complex.im hz
  simp only [castC, Complex.zero_re, Complex.zero_im] at h1 h2
  have hu1 : u.1 = 0 := by exact_mod_cast h1
  have hu2 : u.2 = 0 := by exact_mod_cast h2
  rw [normSqQ, hu1, hu2] at h
  norm_num at h

theorem warp_radius_pos {u : WarpQ} (hu : 0 < normSqQ (u.radius - u.point)) :
    0 < Complex.abs ((toC u).radius - (toC u).point) := by
  have he : (toC u).radius - (toC u).point = castC (u.radius - u.point) := by
    rw [castC_sub]
    rfl
  rw [he]
  exact abs_castC_pos hu

theorem path_term_aux :
    ∀ (nodes : List Node) (pv : Node),
      (∀ nd ∈ nodes, 0 < normSqQ ((warpOf nd).radius - (warpOf nd).point)) →
      0 < normSqQ ((warpOf pv).radius - (warpOf pv).point) →
      ∃ F : ℕ, ∀ fuel, F ≤ fuel → ∃ l, interpolate_path nodes (some pv) fuel = some l := by
  intro nodes
  induction nodes with
  | nil => exact fun pv _ _ => ⟨0, fun fuel _ => ⟨[], rfl⟩⟩
  | cons nd rest ih =>
    intro pv hall hpv
    have hnd : 0 < normSqQ ((warpOf nd).radius - (warpOf nd).point) :=
      hall nd (List.mem_cons_self nd rest)
    obtain ⟨F0, hF0⟩ := ih nd (fun x hx => hall x (List.mem_cons_of_mem _ hx)) hnd
    cases nd with
    | moveTo hh w =>
      refine ⟨F0, fun fuel hf => ?_⟩
      obtain ⟨l0, hl0⟩ := hF0 fuel hf
      have hunf : interpolate_path (Node.moveTo hh w :: rest) (some pv) fuel =
          (if rest.isEmpty then
            (interpolate_path rest (some (Node.moveTo hh w)) fuel).map fun l => toC w :: l
          else interpolate_path rest (some (Node.moveTo hh w)) fuel) := rfl
      rw [hunf, hl0]
      by_cases hre : rest.isEmpty = true
      · rw [if_pos hre]
        exact ⟨toC w :: l0, rfl⟩
      · rw [if_neg hre]
        exact ⟨l0, rfl⟩
    | closePath hh =>
      refine ⟨F0, fun fuel hf => ?_⟩
      obtain ⟨l0, hl0⟩ := hF0 fuel hf
      exact ⟨l0, hl0⟩
    | lineTo hh w =>
      have hr1 : 0 < Complex.abs ((toC (warpOf pv)).radius - (toC (warpOf pv)).point) :=
        warp_radius_pos hpv
      have hr2 : 0 < Complex.abs ((toC w).radius - (toC w).point) := warp_radius_pos hnd
      obtain ⟨N1, hN1⟩ := exists_fuel_bound
        (Complex.abs (castC (ptOf pv) - castC w.point))
        (min (Complex.abs ((toC (warpOf pv)).radius - (toC (warpOf pv)).point))
          (Complex.abs ((toC w).radius - (toC w).point)) / 10)
        (div_pos (lt_min hr1 hr2) (by norm_num))
      refine ⟨max F0 N1, fun fuel hf => ?_⟩
      obtain ⟨l0, hl0⟩ := hF0 fuel (le_trans (le_max_left _ _) hf)
      obtain ⟨seg, hseg⟩ := line_term (toC (warpOf pv)) (toC w)
        (castC (ptOf pv)) (castC w.point) hr1 hr2 fuel 0 le_rfl
        (by simpa using hN1 fuel (le_trans (le_max_right _ _) hf))
      have hunf : interpolate_path (Node.lineTo hh w :: rest) (some pv) fuel =
          (match interpolate_line (toC (warpOf pv)) (toC w)
              (castC (ptOf pv)) (castC w.point) fuel 0 with
          | none => none
          | some seg =>
            (interpolate_path rest (some (Node.lineTo hh w)) fuel).map fun l => seg ++ l) := rfl
      rw [hunf, hseg, hl0]
      exact ⟨seg ++ l0, rfl⟩
    | curveTo hh w c1 c2 =>
      have hr1 : 0 < Complex.abs ((toC (warpOf pv)).radius - (toC (warpOf pv)).point) :=
        warp_radius_pos hpv
      have hr2 : 0 < Complex.abs ((toC w).radius - (toC w).point) := warp_radius_pos hnd
      obtain ⟨N1, hN1⟩ := exists_fuel_bound
        (get_arc_length ((interpolate_cubic_bezier (ptOf pv) c1 c2 w.point 100).map castC))
        (min (Complex.abs ((toC (warpOf pv)).radius - (toC (warpOf pv)).point))
          (Complex.abs ((toC w).radius - (toC w).point)) / 10)
        (div_pos (lt_min hr1 hr2) (by norm_num))
      refine ⟨max F0 N1, fun fuel hf => ?_⟩
      obtain ⟨l0, hl0⟩ := hF0 fuel (le_trans (le_max_left _ _) hf)
      obtain ⟨seg, hseg⟩ := curve_term (toC (warpOf pv)) (toC w)
        ((interpolate_cubic_bezier (ptOf pv) c1 c2 w.point 100).map castC) hr1 hr2
        fuel 0 (1, 0) le_rfl
        (by simpa using hN1 fuel (le_trans (le_max_right _ _) hf))
      have hunf : interpolate_path (Node.curveTo hh w c1 c2 :: rest) (some pv) fuel =
          (match interpolate_curve (toC (warpOf pv)) (toC w)
              ((interpolate_cubic_bezier (ptOf pv) c1 c2 w.point 100).map castC) fuel 0 (1, 0) with
          | none => none
          | some seg =>
            (interpolate_path rest (some (Node.curveTo hh w c1 c2)) fuel).map
              fun l => seg ++ l) := rfl
      rw [hunf, hseg, hl0]
      exact ⟨seg ++ l0, rfl⟩

/-- C4 (amended): on a path starting with a MoveTo whose node warps all have
a radius vector of positive magnitude (ruling out the degenerate
`radius = point` case, whose advance `0.1 * 0` stalls the loop), the
interpolator terminates: some finite fuel makes every sampling loop finish
and emit its list of sampled warps. -/
theorem interpolator_terminates (hd : Hdr) (w : WarpQ) (rest : List Node)
    (hw : 0 < normSqQ (w.radius - w.point))
    (hrest : ∀ nd ∈ rest, 0 < normSqQ ((warpOf nd).radius - (warpOf nd).point)) :
    InterpolatesFinitely (Node.moveTo hd w :: rest) := by
  obtain ⟨F, hF⟩ := path_term_aux rest (Node.moveTo hd w) hrest hw
  obtain ⟨l0, hl0⟩ := hF F le_rfl
  have hunf : interpolate_path (Node.moveTo hd w :: rest) none F =
      (if rest.isEmpty then
        (interpolate_path rest (some (Node.moveTo hd w)) F).map fun l => toC w :: l
      else interpolate_path rest (some (Node.moveTo hd w)) F) := rfl
  by_cases hre : rest.isEmpty = true
  · exact ⟨F, toC w :: l0, by rw [hunf, hl0, if_pos hre]; rfl⟩
  · exact ⟨F, l0, by rw [hunf, hl0, if_neg hre]⟩

/-- Witness for C4 at a single-MoveTo path with radius vector `(2, 0)`. -/
theorem interpolator_terminates_witness :
    0 < normSqQ ((((2 : ℚ), (0 : ℚ)) : CQ) - ((0 : ℚ), (0 : ℚ))) ∧
    InterpolatesFinitely
      [Node.moveTo ⟨0, 0, 0⟩ ⟨(0, 0), (1, 0), (2, 0), 1/2, 3/4, 0⟩] := by
  have hw : 0 < normSqQ ((((2 : ℚ), (0 : ℚ)) : CQ) - ((0 : ℚ), (0 : ℚ))) := by
    norm_num [normSqQ, Prod.fst_sub, Prod.snd_sub]
  exact ⟨hw, interpolator_terminates ⟨0, 0, 0⟩ ⟨(0, 0), (1, 0), (2, 0), 1/2, 3/4, 0⟩ []
    hw (fun nd h => absurd h (List.not_mem_nil nd))⟩

end Liquify
